import Mathlib

/-!
Verification development for the "Drop Four" (Connect Four) game engine.

The definitions below are a shallow embedding of the board logic of
src/board/t_board.h (the sequential Board implementation) and
src/board/t_board.cpp.  The board is a flat 42-cell array (row major,
row 0 at the top), the 69 winning alignments ("quads") are tracked through
a per-quad occupancy code, and the running static evaluation is maintained
incrementally through the lookup tables translated verbatim here.
-/

namespace DropFour

/-- C-array read with default 0, matching reads of int arrays in the source. -/
def lget (l : List Int) (n : Nat) : Int := l.getD n 0

/-- Table lookup indexed by an int expression, as the C code does. -/
def tbl (l : List Int) (i : Int) : Int := l.getD i.toNat 0

/-- Points allotted to 1, 2, 3, and 4 computer squares in a quad
(mconst_dEvalP1..P4 in the source). -/
def dEvalP1 : Int := 1
def dEvalP2 : Int := 3
def dEvalP3 : Int := 17
def dEvalP4 : Int := 2000
/-- Points allotted to 1, 2, 3, and 4 human squares in a quad
(mconst_dEvalN1..N4 in the source). -/
def dEvalN1 : Int := -1
def dEvalN2 : Int := -3
def dEvalN3 : Int := -18
def dEvalN4 : Int := -2000

/-- Next (even) quadcode when a square is added (mconst_rgUpQuadcode). -/
def upQuadcode : List Int :=
  [ 2, 10,  4, 12,  6, 14,  8, 16, -1, -1,
   12, 18, 14, 20, 16, 22, -1, -1, 20, 24,
   22, 26, -1, -1, 26, 28, -1, -1, -1, -1]

/-- Previous (even) quadcode when a square is removed (mconst_rgDownQuadcode). -/
def downQuadcode : List Int :=
  [-1, -1,  0, -1,  2, -1,  4, -1,  6, -1,
   -1,  0, 10,  2, 12,  4, 14,  6, -1, 10,
   18, 12, 20, 14, -1, 18, 24, 20, -1, 24]

/-- Amount to add to the static evaluation for a quadcode transition
(mconst_rgUpEval). -/
def upEval : List Int :=
  [dEvalN1,
   dEvalP1,
   dEvalN2 - dEvalN1,
   -dEvalN1,
   dEvalN3 - dEvalN2,
   -dEvalN2,
   dEvalN4 - dEvalN3,
   -dEvalN3,
   0,
   0,
   -dEvalP1,
   dEvalP2 - dEvalP1,
   0,
   0,
   0,
   0,
   0,
   0,
   -dEvalP2,
   dEvalP3 - dEvalP2,
   0,
   0,
   0,
   0,
   -dEvalP3,
   dEvalP4 - dEvalP3,
   0,
   0,
   0,
   0]

/-- Quad numbers for each of the 42 squares, each row ended by a 0 stop
(mconst_mpPosQuads). -/
def mpPosQuads : List (List Nat) :=
  [[1, 25, 46, 0],
   [1, 2, 28, 47, 0],
   [1, 2, 3, 31, 48, 0],
   [1, 2, 3, 4, 34, 49, 58, 0],
   [2, 3, 4, 37, 59, 0],
   [3, 4, 40, 60, 0],
   [4, 43, 61, 0],
   [5, 25, 26, 50, 0],
   [5, 6, 28, 29, 51, 46, 0],
   [5, 6, 7, 31, 32, 52, 47, 58, 0],
   [5, 6, 7, 8, 34, 35, 53, 48, 62, 59, 0],
   [6, 7, 8, 37, 38, 49, 63, 60, 0],
   [7, 8, 40, 41, 64, 61, 0],
   [8, 43, 44, 65, 0],
   [9, 25, 26, 27, 54, 0],
   [9, 10, 28, 29, 30, 55, 50, 58, 0],
   [9, 10, 11, 31, 32, 33, 56, 51, 46, 62, 59, 0],
   [9, 10, 11, 12, 34, 35, 36, 57, 52, 47, 66, 63, 60, 0],
   [10, 11, 12, 37, 38, 39, 53, 48, 67, 64, 61, 0],
   [11, 12, 40, 41, 42, 49, 68, 65, 0],
   [12, 43, 44, 45, 69, 0],
   [13, 25, 26, 27, 58, 0],
   [13, 14, 28, 29, 30, 54, 62, 59, 0],
   [13, 14, 15, 31, 32, 33, 55, 50, 66, 63, 60, 0],
   [13, 14, 15, 16, 34, 35, 36, 56, 51, 46, 67, 64, 61, 0],
   [14, 15, 16, 37, 38, 39, 57, 52, 47, 68, 65, 0],
   [15, 16, 40, 41, 42, 53, 48, 69, 0],
   [16, 43, 44, 45, 49, 0],
   [17, 26, 27, 62, 0],
   [17, 18, 29, 30, 66, 63, 0],
   [17, 18, 19, 32, 33, 54, 67, 64, 0],
   [17, 18, 19, 20, 35, 36, 55, 50, 68, 65, 0],
   [18, 19, 20, 38, 39, 56, 51, 69, 0],
   [19, 20, 41, 42, 57, 52, 0],
   [20, 44, 45, 53, 0],
   [21, 27, 66, 0],
   [21, 22, 30, 67, 0],
   [21, 22, 23, 33, 68, 0],
   [21, 22, 23, 24, 36, 54, 69, 0],
   [22, 23, 24, 39, 55, 0],
   [23, 24, 42, 56, 0],
   [24, 45, 57, 0]]

/-- The quads updated for a move on square sq: the source walks the row of
mpPosQuads until the 0 stop. -/
def quadsOf (sq : Nat) : List Nat :=
  (mpPosQuads.getD sq []).takeWhile (fun q => q ≠ 0)

/-- The engine state: the Board data members mutated by move and remove.
The history list has one entry per move made (m_rgHistory[0..m_cMoves-1]);
its length plays the role of m_cMoves. -/
structure BoardState where
  pos : List Int
  quad : List Int
  sumStatEval : Int
  history : List Nat
  isComputerTurn : Bool
  deriving DecidableEq, Repr

/-- The freshly initialized board (Board constructor resp. boardInit):
empty position, all quads 0, score 0, no moves, human to move. -/
def initBoard : BoardState :=
  { pos := List.replicate 42 0
    quad := List.replicate 70 0
    sumStatEval := 0
    history := []
    isComputerTurn := false }

/-- Square receiving a piece dropped in column c: the bottom-up scan of
Board::move ("find the lowest blank in column"). -/
def moveSquare (pos : List Int) (c : Nat) : Nat :=
  (if lget pos (35 + c) ≠ 0 then
    (if lget pos (28 + c) ≠ 0 then
      (if lget pos (21 + c) ≠ 0 then
        (if lget pos (14 + c) ≠ 0 then
          (if lget pos (7 + c) ≠ 0 then 0 else 7)
         else 14)
       else 21)
     else 28)
   else 35) + c

/-- Square vacated by an undo in column c: the top-down scan of
Board::remove ("find the highest occupied square"). -/
def removeSquare (pos : List Int) (c : Nat) : Nat :=
  (if lget pos c ≠ 0 then 0
   else if lget pos (7 + c) ≠ 0 then 7
   else if lget pos (14 + c) ≠ 0 then 14
   else if lget pos (21 + c) ≠ 0 then 21
   else if lget pos (28 + c) ≠ 0 then 28
   else 35) + c

/-- Board::updateQuad acting on the (quad array, running score) pair;
f is m_fIsComputerTurn at the time of the update. -/
def updateQuad (f : Bool) (qs : List Int × Int) (q : Nat) : List Int × Int :=
  let code : Int := lget qs.1 q + (if f then 1 else 0)
  (qs.1.set q (tbl upQuadcode code), qs.2 + tbl upEval code)

/-- Board::downdateQuad acting on the (quad array, running score) pair;
f is m_fIsComputerTurn at the time of the downdate (already flipped back). -/
def downdateQuad (f : Bool) (qs : List Int × Int) (q : Nat) : List Int × Int :=
  let b : Int := if f then 1 else 0
  let newq : Int := tbl downQuadcode (lget qs.1 q + b)
  (qs.1.set q newq, qs.2 - tbl upEval (newq + b))

/-- Board::move: append to history, drop a piece of the side to move on the
lowest blank of the column, update the quads through that square, flip turn. -/
def move (c : Nat) (s : BoardState) : BoardState :=
  let sq := moveSquare s.pos c
  let owner : Int := if s.isComputerTurn then 1 else -1
  let qs := (quadsOf sq).foldl (updateQuad s.isComputerTurn) (s.quad, s.sumStatEval)
  { pos := s.pos.set sq owner
    quad := qs.1
    sumStatEval := qs.2
    history := s.history ++ [c]
    isComputerTurn := !s.isComputerTurn }

/-- Board::remove: pop the last column from history, clear the highest
occupied square of that column, downdate its quads, flip turn back. -/
def remove (s : BoardState) : BoardState :=
  let c := s.history.getLastD 0
  let sq := removeSquare s.pos c
  let f := !s.isComputerTurn
  let qs := (quadsOf sq).foldl (downdateQuad f) (s.quad, s.sumStatEval)
  { pos := s.pos.set sq 0
    quad := qs.1
    sumStatEval := qs.2
    history := s.history.dropLast
    isComputerTurn := f }

/-- Board::isGameOver: score beyond a win threshold or 42 moves made. -/
def isGameOver (s : BoardState) : Bool :=
  s.sumStatEval > 1000 || s.sumStatEval < -1000 || s.history.length == 42

/-- Board::isComputerWin. -/
def isComputerWin (s : BoardState) : Int :=
  if s.sumStatEval > 1000 then 1 else 0

/-- Board::isHumanWin. -/
def isHumanWin (s : BoardState) : Int :=
  if s.sumStatEval < -1000 then 1 else 0

/-- Board::takeHumanTurn: returns the sentinel -1 and leaves the state alone
on a rejected move, otherwise plays the column and returns it. -/
def takeHumanTurn (s : BoardState) (colMove : Int) : Int × BoardState :=
  if isGameOver s || colMove < 0 || colMove > 6 || lget s.pos colMove.toNat ≠ 0 then
    (-1, s)
  else
    (colMove, move colMove.toNat s)

/-- Board::takeBackMove: undo the last move and report its column, or the
sentinel -1 when no move has been made. -/
def takeBackMove (s : BoardState) : Int × BoardState :=
  if s.history.length ≠ 0 then
    ((s.history.getLastD 0 : Int), remove s)
  else
    (-1, s)

/-- Static value a trial move in column c would give: the probe
move ... read m_sumStatEval ... remove performed by descendMoves and
ascendMoves to fill statvals. -/
def statval (s : BoardState) (c : Nat) : Int := (move c s).sumStatEval

/-- The while loop of descendMoves and ascendMoves: walk the candidate list,
drop a full column by copying the last element into its place and shrinking,
keep a playable column and advance. done holds the already confirmed prefix. -/
def pruneMoves (pos : List Int) (done pending : List Nat) : List Nat :=
  match pending with
  | [] => done
  | [m] => if lget pos m ≠ 0 then done else pruneMoves pos (done ++ [m]) []
  | m :: h :: t =>
    if lget pos m ≠ 0 then
      pruneMoves pos done ((h :: t).getLastD 0 :: (h :: t).dropLast)
    else
      pruneMoves pos (done ++ [m]) (h :: t)
termination_by pending.length
decreasing_by
  all_goals simp [List.length_dropLast]

/-- Exchange of two array slots, as the sorting loops do. -/
def swapL (l : List Nat) (i j : Nat) : List Nat :=
  (l.set i (l.getD j 0)).set j (l.getD i 0)

/-- Inner loop of the descending selection sort: scan j upward keeping the
index of the largest statval strictly greater than the running bigval;
bigindex stays 0 when no candidate beats slot i. -/
def selBig (key : Nat → Int) (moves : List Nat) (bigval : Int) (bigindex j : Nat) :
    Nat :=
  if j < moves.length then
    if key (moves.getD j 0) > bigval then
      selBig key moves (key (moves.getD j 0)) j (j + 1)
    else
      selBig key moves bigval bigindex (j + 1)
  else bigindex
termination_by moves.length - j

/-- Outer loop of the descending selection sort of descendMoves. -/
def ssortDesc (key : Nat → Int) (moves : List Nat) (i : Nat) : List Nat :=
  if i + 1 < moves.length then
    let bigindex := selBig key moves (key (moves.getD i 0)) 0 (i + 1)
    let moves' := if bigindex ≠ 0 then swapL moves i bigindex else moves
    ssortDesc key moves' (i + 1)
  else moves
termination_by moves.length - i
decreasing_by
  simp only [swapL]
  split <;> simp [List.length_set] <;> omega

/-- Inner loop of the ascending selection sort of ascendMoves. -/
def selSmall (key : Nat → Int) (moves : List Nat) (smallval : Int)
    (smallindex j : Nat) : Nat :=
  if j < moves.length then
    if key (moves.getD j 0) < smallval then
      selSmall key moves (key (moves.getD j 0)) j (j + 1)
    else
      selSmall key moves smallval smallindex (j + 1)
  else smallindex
termination_by moves.length - j

/-- Outer loop of the ascending selection sort of ascendMoves. -/
def ssortAsc (key : Nat → Int) (moves : List Nat) (i : Nat) : List Nat :=
  if i + 1 < moves.length then
    let smallindex := selSmall key moves (key (moves.getD i 0)) 0 (i + 1)
    let moves' := if smallindex ≠ 0 then swapL moves i smallindex else moves
    ssortAsc key moves' (i + 1)
  else moves
termination_by moves.length - i
decreasing_by
  simp only [swapL]
  split <;> simp [List.length_set] <;> omega

/-- The canonical candidate order of every search routine. -/
def rgMovesInit : List Nat := [3, 2, 4, 1, 5, 0, 6]

/-- Board::descendMoves: remove full columns, then sort the playable
candidates by descending one-ply static value. -/
def descendMoves (s : BoardState) : List Nat :=
  ssortDesc (statval s) (pruneMoves s.pos [] rgMovesInit) 0

/-- Board::ascendMoves: remove full columns, then sort the playable
candidates by ascending one-ply static value. -/
def ascendMoves (s : BoardState) : List Nat :=
  ssortAsc (statval s) (pruneMoves s.pos [] rgMovesInit) 0

/-- Leaf ply of calcMaxEval: try every playable column once and keep the
highest static evaluation, starting from mconst_worstEval. -/
def leafMax (s : BoardState) : Int :=
  (List.range 7).foldl
    (fun best c =>
      if lget s.pos c = 0 then
        if (move c s).sumStatEval > best then (move c s).sumStatEval else best
      else best)
    (-10000)

/-- Leaf ply of calcMinEval: try every playable column once and keep the
lowest static evaluation, starting from mconst_bestEval. -/
def leafMin (s : BoardState) : Int :=
  (List.range 7).foldl
    (fun best c =>
      if lget s.pos c = 0 then
        if (move c s).sumStatEval < best then (move c s).sumStatEval else best
      else best)
    (10000)

mutual

/-- Board::calcMaxEval: decrement depth; at the leaf take the one-ply
maximum, otherwise search the best four candidates with alpha-beta. The
alpha parameter is carried but, as in the source, never read. -/
def calcMaxEval (s : BoardState) (depth : Nat) (alpha beta : Int) : Int :=
  match depth with
  | 0 => leafMax s
  | d + 1 =>
    if d = 0 then leafMax s
    else maxLoop s d beta ((descendMoves s).take 4) (-10000)
termination_by (depth, 0)
decreasing_by
  exact Prod.Lex.left _ _ (Nat.lt_succ_self d)

/-- The daughter loop of calcMaxEval: value each candidate (game-over
positions by their score, others by calcMinEval with the running best as
alpha), raise best, and break once beta is reached. -/
def maxLoop (s : BoardState) (d : Nat) (beta : Int) (moves : List Nat)
    (best : Int) : Int :=
  match moves with
  | [] => best
  | c :: rest =>
    let s' := move c s
    let temp := if isGameOver s' then s'.sumStatEval else calcMinEval s' d best beta
    if best < temp then
      if beta ≤ temp then temp else maxLoop s d beta rest temp
    else maxLoop s d beta rest best
termination_by (d, 1 + moves.length)

/-- Board::calcMinEval, mirror image of calcMaxEval. The beta parameter is
carried but, as in the source, never read. -/
def calcMinEval (s : BoardState) (depth : Nat) (alpha beta : Int) : Int :=
  match depth with
  | 0 => leafMin s
  | d + 1 =>
    if d = 0 then leafMin s
    else minLoop s d alpha ((ascendMoves s).take 4) 10000
termination_by (depth, 0)
decreasing_by
  exact Prod.Lex.left _ _ (Nat.lt_succ_self d)

/-- The daughter loop of calcMinEval, mirror image of maxLoop. -/
def minLoop (s : BoardState) (d : Nat) (alpha : Int) (moves : List Nat)
    (best : Int) : Int :=
  match moves with
  | [] => best
  | c :: rest =>
    let s' := move c s
    let temp := if isGameOver s' then s'.sumStatEval else calcMaxEval s' d alpha best
    if best > temp then
      if temp ≤ alpha then temp else minLoop s d alpha rest temp
    else minLoop s d alpha rest best
termination_by (d, 1 + moves.length)

end

/-- Value computed for one candidate of the calcMaxMove root loop. -/
def rootMaxTemp (s : BoardState) (dm : Nat) (alpha : Int) (c : Nat) : Int :=
  let s' := move c s
  if isGameOver s' then s'.sumStatEval else calcMinEval s' dm alpha 10000

/-- One iteration of the calcMaxMove root loop over the state
(alpha, best, bestmove, secondbestmove). -/
def rootMaxStep (s : BoardState) (dm : Nat) (st : Int × Int × Nat × Nat)
    (c : Nat) : Int × Int × Nat × Nat :=
  let temp := rootMaxTemp s dm st.1 c
  if st.2.1 < temp then (temp, temp, c, st.2.2.1) else st

/-- Value computed for one candidate of the calcMinMove root loop. -/
def rootMinTemp (s : BoardState) (dm : Nat) (beta : Int) (c : Nat) : Int :=
  let s' := move c s
  if isGameOver s' then s'.sumStatEval else calcMaxEval s' dm (-10000) beta

/-- One iteration of the calcMinMove root loop over the state
(beta, best, bestmove, secondbestmove). -/
def rootMinStep (s : BoardState) (dm : Nat) (st : Int × Int × Nat × Nat)
    (c : Nat) : Int × Int × Nat × Nat :=
  let temp := rootMinTemp s dm st.1 c
  if st.2.1 > temp then (temp, temp, c, st.2.2.1) else st

/-- The deterministic part of Board::calcMaxMove: the filtered ordered
candidate list and the final (alpha, best, bestmove, secondbestmove). -/
def calcMaxMoveCore (s : BoardState) (dm : Nat) :
    (Int × Int × Nat × Nat) × List Nat :=
  let moves := descendMoves s
  (moves.foldl (rootMaxStep s dm) (-10000, -10001, moves.headD 0, moves.headD 0),
   moves)

/-- The deterministic part of Board::calcMinMove. -/
def calcMinMoveCore (s : BoardState) (dm : Nat) :
    (Int × Int × Nat × Nat) × List Nat :=
  let moves := ascendMoves s
  (moves.foldl (rootMinStep s dm) (10000, 10001, moves.headD 0, moves.headD 0),
   moves)

/-- The candidate values of the calcMaxMove root loop in exploration order,
with the alpha threading of the loop reproduced exactly. -/
def rootMaxTemps (s : BoardState) (dm : Nat) : List Int :=
  let moves := descendMoves s
  (moves.foldl
    (fun (p : (Int × Int × Nat × Nat) × List Int) c =>
      (rootMaxStep s dm p.1 c, p.2 ++ [rootMaxTemp s dm p.1.1 c]))
    ((-10000, -10001, moves.headD 0, moves.headD 0), [])).2

/-- The candidate values of the calcMinMove root loop in exploration order. -/
def rootMinTemps (s : BoardState) (dm : Nat) : List Int :=
  let moves := ascendMoves s
  (moves.foldl
    (fun (p : (Int × Int × Nat × Nat) × List Int) c =>
      (rootMinStep s dm p.1 c, p.2 ++ [rootMinTemp s dm p.1.1 c]))
    ((10000, 10001, moves.headD 0, moves.headD 0), [])).2

/-- Board::calcMaxMove with the two uniform draws of the source modelled as
rationals r1, r2 in the half-open unit interval: with probability
chancePickBest return bestmove, with probability chancePickSecondBest
return secondbestmove, otherwise index the candidate list uniformly. -/
def calcMaxMove (s : BoardState) (dm : Nat) (chanceBest chanceSecond r1 r2 : ℚ) :
    Int :=
  let core := calcMaxMoveCore s dm
  if r1 < chanceBest then (core.1.2.2.1 : Int)
  else if r1 < chanceBest + chanceSecond then (core.1.2.2.2 : Int)
  else (core.2.getD (r2 * (core.2.length : ℚ)).floor.toNat 0 : Int)

/-- Board::calcMinMove with the random draws modelled as in calcMaxMove. -/
def calcMinMove (s : BoardState) (dm : Nat) (chanceBest chanceSecond r1 r2 : ℚ) :
    Int :=
  let core := calcMinMoveCore s dm
  if r1 < chanceBest then (core.1.2.2.1 : Int)
  else if r1 < chanceBest + chanceSecond then (core.1.2.2.2 : Int)
  else (core.2.getD (r2 * (core.2.length : ℚ)).floor.toNat 0 : Int)

/-- Board::takeComputerTurn: the sentinel when the game is over, otherwise
the root search of the side to move followed by the move itself. -/
def takeComputerTurn (s : BoardState) (dm : Nat)
    (chanceBest chanceSecond r1 r2 : ℚ) : Int × BoardState :=
  if isGameOver s then (-1, s)
  else
    let colMove :=
      if s.isComputerTurn then calcMaxMove s dm chanceBest chanceSecond r1 r2
      else calcMinMove s dm chanceBest chanceSecond r1 r2
    (colMove, move colMove.toNat s)

/-- Board::setDifficulty as the tuple it determines:
(m_difficulty, m_depthMax, m_chancePickBest, m_chancePickSecondBest).
Out-of-range requests fall back to the default difficulty 4; the chance
doubles of the source are modelled as rationals. -/
def setDifficulty (d : Int) : Int × Int × ℚ × ℚ :=
  let difficulty := if d < 0 ∨ d > 9 then 4 else d
  let depthMax :=
    if difficulty ≤ 4 then difficulty + 1
    else if difficulty ≤ 7 then 5 + 2 * (difficulty - 4)
    else 11 + 3 * (difficulty - 7)
  let chancePickBest : ℚ := (1 / 10) * ((difficulty : ℚ) + 1)
  let chancePickSecondBest : ℚ :=
    if difficulty ≤ 4 then chancePickBest else 1 - chancePickBest
  (difficulty, depthMax, chancePickBest, chancePickSecondBest)

/-- The cells a quad runs through, recovered from the static table: square
sq lies on quad q exactly when q appears in the row of sq. -/
def cellsOf (q : Nat) : List Nat :=
  (List.range 42).filter (fun sq => q ∈ quadsOf sq)

/-- Number of computer (max, +1) pieces on quad q. -/
def cMax (s : BoardState) (q : Nat) : Nat :=
  (cellsOf q).countP (fun sq => lget s.pos sq == 1)

/-- Number of human (min, -1) pieces on quad q. -/
def cMin (s : BoardState) (q : Nat) : Nat :=
  (cellsOf q).countP (fun sq => lget s.pos sq == -1)

/-- The quadcode documented in the source for a quad holding m computer and
n human pieces ("0 - 0 max, 0 min ... 28 - 4 max, 0 min"). -/
def encode (m n : Nat) : Int :=
  match m, n with
  | 0, 0 => 0
  | 0, 1 => 2
  | 0, 2 => 4
  | 0, 3 => 6
  | 0, 4 => 8
  | 1, 0 => 10
  | 1, 1 => 12
  | 1, 2 => 14
  | 1, 3 => 16
  | 2, 0 => 18
  | 2, 1 => 20
  | 2, 2 => 22
  | 3, 0 => 24
  | 3, 1 => 26
  | 4, 0 => 28
  | _, _ => -1

/-- Positive per-count quad values of the engine (1, 3, 17, 2000). -/
def pVal : Nat → Int
  | 1 => dEvalP1
  | 2 => dEvalP2
  | 3 => dEvalP3
  | 4 => dEvalP4
  | _ => 0

/-- Negative per-count quad values of the engine (-1, -3, -18, -2000). -/
def nVal : Nat → Int
  | 1 => dEvalN1
  | 2 => dEvalN2
  | 3 => dEvalN3
  | 4 => dEvalN4
  | _ => 0

/-- Independent single-owner value of a quad holding m computer and n human
pieces: dead and empty quads are worth 0. -/
def quadVal (m n : Nat) : Int :=
  if m ≠ 0 ∧ n ≠ 0 then 0
  else if m ≠ 0 then pVal m
  else nVal n

/-- Contribution of quad q to the position score, recomputed from scratch. -/
def contrib (s : BoardState) (q : Nat) : Int :=
  quadVal (cMax s q) (cMin s q)

/-- Brute-force recomputation of the static evaluation: the sum of all 69
quad contributions. -/
def specSum (s : BoardState) : Int :=
  ∑ q in Finset.Icc 1 69, contrib s q

/-- The symmetric per-count values the specification text asserts: the same
magnitudes 1, 3, 17, 2000 for both owners. -/
def quadValSym (m n : Nat) : Int :=
  if m ≠ 0 ∧ n ≠ 0 then 0
  else if m ≠ 0 then pVal m
  else -pVal n

/-- Position score as the specification text describes it, with symmetric
magnitudes for the two owners. -/
def specSumSym (s : BoardState) : Int :=
  ∑ q in Finset.Icc 1 69, quadValSym (cMax s q) (cMin s q)

/-- Gravity: an occupied cell has an occupied cell directly below it. -/
def gravityOK (s : BoardState) : Prop :=
  ∀ c, c < 7 → ∀ r, r < 5 →
    lget s.pos (r * 7 + c) ≠ 0 → lget s.pos ((r + 1) * 7 + c) ≠ 0

/-- A column is full when all six of its cells are occupied. -/
def columnFull (s : BoardState) (c : Nat) : Prop :=
  ∀ r, r ≤ 5 → lget s.pos (r * 7 + c) ≠ 0

/-- Square sq is the lowest empty cell of column c: it is empty, it lies in
the column, and every cell below it is occupied. -/
def lowestEmpty (s : BoardState) (c sq : Nat) : Prop :=
  ∃ r, r ≤ 5 ∧ sq = r * 7 + c ∧ lget s.pos sq = 0 ∧
    ∀ r', r < r' → r' ≤ 5 → lget s.pos (r' * 7 + c) ≠ 0

/-- A legal move: a column in range whose top cell is still empty, requested
while the game is not over. -/
def LegalMove (s : BoardState) (c : Nat) : Prop :=
  c ≤ 6 ∧ lget s.pos c = 0 ∧ isGameOver s = false

instance (s : BoardState) (c : Nat) : Decidable (LegalMove s c) := by
  unfold LegalMove
  infer_instance

/-- Positions reachable by playing legal moves from a fresh board with
either side chosen to start. -/
inductive Reachable : BoardState → Prop
  | start (t : Bool) : Reachable { initBoard with isComputerTurn := t }
  | play (s : BoardState) (c : Nat) :
      Reachable s → LegalMove s c → Reachable (move c s)

/-- The data invariant tying the incremental representation to the board
content: array sizes, gravity, every quadcode agreeing with its piece
counts, the running score agreeing with the 69 quad contributions, and the
move count agreeing with the number of pieces. -/
structure Inv (s : BoardState) : Prop where
  posLen : s.pos.length = 42
  quadLen : s.quad.length = 70
  gravity : gravityOK s
  codes : ∀ q, 1 ≤ q → q ≤ 69 → lget s.quad q = encode (cMax s q) (cMin s q)
  score : s.sumStatEval = specSum s
  pieces : s.pos.countP (fun x => !(x == 0)) = s.history.length

/-- Quadcodes of quads that still have room for another piece. -/
def AddableCode (c : Int) : Prop :=
  c ∈ ([0, 2, 4, 6, 10, 12, 14, 18, 20, 24] : List Int)

instance (c : Int) : Decidable (AddableCode c) := by
  unfold AddableCode
  infer_instance

/-- Largest entry of an integer list, measured from a floor of -10001
(one below mconst_worstEval, the initial best of calcMaxMove). -/
def listMax (l : List Int) : Int := l.foldl max (-10001)

/-- Smallest entry of an integer list, measured from a ceiling of 10001
(one above mconst_bestEval, the initial best of calcMinMove). -/
def listMin (l : List Int) : Int := l.foldl min 10001

/-- Index of the first entry attaining the maximum of the list. -/
def firstArgmax (l : List Int) : Nat := l.indexOf (listMax l)

/-- Index of the first entry attaining the minimum of the list. -/
def firstArgmin (l : List Int) : Nat := l.indexOf (listMin l)

/-- Largest entry of a list after erasing the first occurrence of its
maximum: the "second-best value among all candidates". -/
def secondBestValue (l : List Int) : Int :=
  listMax (l.eraseIdx (firstArgmax l))

/-- Smallest entry of a list after erasing the first occurrence of its
minimum. -/
def secondBestValueMin (l : List Int) : Int :=
  listMin (l.eraseIdx (firstArgmin l))

/-- Starting state with the computer to move (setComputerFirst). -/
def compStart : BoardState := { initBoard with isComputerTurn := true }

/-- Concrete position for the score cross-check: human stacks three pieces
in column 0 while the computer answers twice in column 6. -/
def c2state : BoardState :=
  move 0 (move 6 (move 0 (move 6 (move 0 initBoard))))

/-- Concrete position for the second-best bookkeeping: computer first plays
column 2, human answers in column 0, computer to move again. -/
def c6state : BoardState := move 0 (move 2 compStart)

/-- Values computed by the calcMaxMove root loop, one per candidate in
exploration order, threading the loop state exactly as the loop does. -/
def rootMaxTrace (s : BoardState) (dm : Nat) (st : Int × Int × Nat × Nat) :
    List Nat → List Int
  | [] => []
  | c :: rest =>
    rootMaxTemp s dm st.1 c :: rootMaxTrace s dm (rootMaxStep s dm st c) rest

/-- Values computed by the calcMinMove root loop. -/
def rootMinTrace (s : BoardState) (dm : Nat) (st : Int × Int × Nat × Nat) :
    List Nat → List Int
  | [] => []
  | c :: rest =>
    rootMinTemp s dm st.1 c :: rootMinTrace s dm (rootMinStep s dm st c) rest

/-- Index of the first entry attaining the running maximum measured from
the floor b, when some entry exceeds b. -/
def firstArgmaxFrom (b : Int) (l : List Int) : Option Nat :=
  if l.foldl max b > b then some (l.indexOf (l.foldl max b)) else none

/-- Index of the first entry attaining the running minimum measured from
the ceiling b, when some entry is below b. -/
def firstArgminFrom (b : Int) (l : List Int) : Option Nat :=
  if l.foldl min b < b then some (l.indexOf (l.foldl min b)) else none

/-- Fuel-indexed structural copy of pruneMoves, for concrete evaluation. -/
def pruneMovesF (fuel : Nat) (pos : List Int) (done pending : List Nat) :
    List Nat :=
  match fuel with
  | 0 => done
  | fuel + 1 =>
    match pending with
    | [] => done
    | [m] => if lget pos m ≠ 0 then done else pruneMovesF fuel pos (done ++ [m]) []
    | m :: h :: t =>
      if lget pos m ≠ 0 then
        pruneMovesF fuel pos done ((h :: t).getLastD 0 :: (h :: t).dropLast)
      else
        pruneMovesF fuel pos (done ++ [m]) (h :: t)

/-- Fuel-indexed structural copy of selBig. -/
def selBigF (fuel : Nat) (key : Nat → Int) (moves : List Nat) (bigval : Int)
    (bigindex j : Nat) : Nat :=
  match fuel with
  | 0 => bigindex
  | fuel + 1 =>
    if j < moves.length then
      if key (moves.getD j 0) > bigval then
        selBigF fuel key moves (key (moves.getD j 0)) j (j + 1)
      else
        selBigF fuel key moves bigval bigindex (j + 1)
    else bigindex

/-- Fuel-indexed structural copy of ssortDesc. -/
def ssortDescF (fuel : Nat) (key : Nat → Int) (moves : List Nat) (i : Nat) :
    List Nat :=
  match fuel with
  | 0 => moves
  | fuel + 1 =>
    if i + 1 < moves.length then
      ssortDescF fuel key
        (if selBigF moves.length key moves (key (moves.getD i 0)) 0 (i + 1) ≠ 0
         then swapL moves i
           (selBigF moves.length key moves (key (moves.getD i 0)) 0 (i + 1))
         else moves)
        (i + 1)
    else moves

/-- Fuel-indexed structural copy of selSmall. -/
def selSmallF (fuel : Nat) (key : Nat → Int) (moves : List Nat) (smallval : Int)
    (smallindex j : Nat) : Nat :=
  match fuel with
  | 0 => smallindex
  | fuel + 1 =>
    if j < moves.length then
      if key (moves.getD j 0) < smallval then
        selSmallF fuel key moves (key (moves.getD j 0)) j (j + 1)
      else
        selSmallF fuel key moves smallval smallindex (j + 1)
    else smallindex

/-- Fuel-indexed structural copy of ssortAsc. -/
def ssortAscF (fuel : Nat) (key : Nat → Int) (moves : List Nat) (i : Nat) :
    List Nat :=
  match fuel with
  | 0 => moves
  | fuel + 1 =>
    if i + 1 < moves.length then
      ssortAscF fuel key
        (if selSmallF moves.length key moves (key (moves.getD i 0)) 0 (i + 1) ≠ 0
         then swapL moves i
           (selSmallF moves.length key moves (key (moves.getD i 0)) 0 (i + 1))
         else moves)
        (i + 1)
    else moves

/-- Structural copy of descendMoves built from the fuel-indexed loops. -/
def descendMovesF (s : BoardState) : List Nat :=
  ssortDescF (pruneMovesF 7 s.pos [] rgMovesInit).length (statval s)
    (pruneMovesF 7 s.pos [] rgMovesInit) 0

/-- Structural copy of ascendMoves built from the fuel-indexed loops. -/
def ascendMovesF (s : BoardState) : List Nat :=
  ssortAscF (pruneMovesF 7 s.pos [] rgMovesInit).length (statval s)
    (pruneMovesF 7 s.pos [] rgMovesInit) 0

/-- The calcMaxMove root-loop value of a candidate at depthMax 1, where the
inner search is a single min leaf and the alpha argument is dead. -/
def rootMaxTempF1 (s : BoardState) (c : Nat) : Int :=
  if isGameOver (move c s) then (move c s).sumStatEval else leafMin (move c s)

/-- One calcMaxMove root-loop iteration at depthMax 1. -/
def rootMaxStepF1 (s : BoardState) (st : Int × Int × Nat × Nat) (c : Nat) :
    Int × Int × Nat × Nat :=
  let temp := rootMaxTempF1 s c
  if st.2.1 < temp then (temp, temp, c, st.2.2.1) else st

/-- The calcMinMove root-loop value of a candidate at depthMax 1. -/
def rootMinTempF1 (s : BoardState) (c : Nat) : Int :=
  if isGameOver (move c s) then (move c s).sumStatEval else leafMax (move c s)

/-- One calcMinMove root-loop iteration at depthMax 1. -/
def rootMinStepF1 (s : BoardState) (st : Int × Int × Nat × Nat) (c : Nat) :
    Int × Int × Nat × Nat :=
  let temp := rootMinTempF1 s c
  if st.2.1 > temp then (temp, temp, c, st.2.2.1) else st

section Lemmas

theorem lget_set_eq {l : List Int} {n : Nat} (v : Int) (h : n < l.length) :
    lget (l.set n v) n = v := by
  simp [lget, List.getD_eq_getElem?_getD, List.getElem?_set_self h]

theorem lget_set_ne {l : List Int} {m n : Nat} (v : Int) (h : m ≠ n) :
    lget (l.set m v) n = lget l n := by
  simp [lget, List.getD_eq_getElem?_getD, List.getElem?_set_ne h]

theorem set_zero_of_lget {l : List Int} {n : Nat} (h : lget l n = 0) :
    l.set n 0 = l := by
  apply List.ext_getElem?
  intro m
  by_cases hm : n = m
  · subst hm
    by_cases hlt : n < l.length
    · rw [List.getElem?_set_self hlt]
      rw [lget, List.getD_eq_getElem?_getD, List.getElem?_eq_getElem hlt] at h
      simp at h
      rw [List.getElem?_eq_getElem hlt, h]
    · have h1 : (l.set n 0)[n]? = none := by
        rw [List.getElem?_eq_none_iff, List.length_set]
        omega
      have h2 : l[n]? = none := by
        rw [List.getElem?_eq_none_iff]
        omega
      rw [h1, h2]
  · rw [List.getElem?_set_ne hm]

theorem lget_replicate (k n : Nat) : lget (List.replicate k (0 : Int)) n = 0 := by
  rw [lget, List.getD_eq_getElem?_getD, List.getElem?_replicate]
  split <;> rfl

theorem lget_init (n : Nat) : lget initBoard.pos n = 0 :=
  lget_replicate 42 n

/-- Occupied cells propagate downward along a column. -/
theorem grav_chain {s : BoardState} (hg : gravityOK s) {c : Nat} (hc : c < 7)
    {r₁ r₂ : Nat} (h12 : r₁ ≤ r₂) (h5 : r₂ ≤ 5)
    (h1 : lget s.pos (r₁ * 7 + c) ≠ 0) : lget s.pos (r₂ * 7 + c) ≠ 0 := by
  induction r₂, h12 using Nat.le_induction with
  | base => exact h1
  | succ n hmn ih => exact hg c hc n (by omega) (ih (by omega))

/-- The bottom-up scan of Board::move finds the lowest empty cell of a
column that is not full, on a board satisfying gravity. -/
theorem moveSquare_lowest {s : BoardState} (hg : gravityOK s) {c : Nat}
    (hc : c ≤ 6) (htop : lget s.pos c = 0) :
    ∃ r, r ≤ 5 ∧ moveSquare s.pos c = r * 7 + c ∧
      lget s.pos (r * 7 + c) = 0 ∧
      (∀ r', r' < r → lget s.pos (r' * 7 + c) = 0) ∧
      (∀ r', r < r' → r' ≤ 5 → lget s.pos (r' * 7 + c) ≠ 0) := by
  have hc7 : c < 7 := by omega
  have above : ∀ r : Nat, r ≤ 5 → lget s.pos (r * 7 + c) = 0 →
      ∀ r', r' < r → lget s.pos (r' * 7 + c) = 0 := by
    intro r hr hempty r' hr'
    by_contra hocc
    exact grav_chain hg hc7 (le_of_lt hr') hr hocc hempty
  have e5 : 5 * 7 + c = 35 + c := by omega
  have e4 : 4 * 7 + c = 28 + c := by omega
  have e3 : 3 * 7 + c = 21 + c := by omega
  have e2 : 2 * 7 + c = 14 + c := by omega
  have e1 : 1 * 7 + c = 7 + c := by omega
  have e0 : 0 * 7 + c = c := by omega
  unfold moveSquare
  by_cases h35 : lget s.pos (35 + c) = 0
  · rw [if_neg (fun hne => hne h35)]
    refine ⟨5, by omega, by omega, by rw [e5]; exact h35, above 5 (by omega) (by rw [e5]; exact h35), ?_⟩
    intro r' h1 h2
    omega
  · rw [if_pos h35]
    by_cases h28 : lget s.pos (28 + c) = 0
    · rw [if_neg (fun hne => hne h28)]
      refine ⟨4, by omega, by omega, by rw [e4]; exact h28, above 4 (by omega) (by rw [e4]; exact h28), ?_⟩
      intro r' h1 h2
      have : r' = 5 := by omega
      subst this
      rw [e5]
      exact h35
    · rw [if_pos h28]
      by_cases h21 : lget s.pos (21 + c) = 0
      · rw [if_neg (fun hne => hne h21)]
        refine ⟨3, by omega, by omega, by rw [e3]; exact h21, above 3 (by omega) (by rw [e3]; exact h21), ?_⟩
        intro r' h1 h2
        interval_cases r'
        · rw [e4]; exact h28
        · rw [e5]; exact h35
      · rw [if_pos h21]
        by_cases h14 : lget s.pos (14 + c) = 0
        · rw [if_neg (fun hne => hne h14)]
          refine ⟨2, by omega, by omega, by rw [e2]; exact h14, above 2 (by omega) (by rw [e2]; exact h14), ?_⟩
          intro r' h1 h2
          interval_cases r'
          · rw [e3]; exact h21
          · rw [e4]; exact h28
          · rw [e5]; exact h35
        · rw [if_pos h14]
          by_cases h7 : lget s.pos (7 + c) = 0
          · rw [if_neg (fun hne => hne h7)]
            refine ⟨1, by omega, by omega, by rw [e1]; exact h7, ?_, ?_⟩
            · intro r' hr'
              have : r' = 0 := by omega
              subst this
              rw [e0]
              exact htop
            · intro r' h1 h2
              interval_cases r'
              · rw [e2]; exact h14
              · rw [e3]; exact h21
              · rw [e4]; exact h28
              · rw [e5]; exact h35
          · rw [if_pos h7]
            refine ⟨0, by omega, by omega, by rw [e0]; exact htop, ?_, ?_⟩
            · intro r' hr'
              omega
            · intro r' h1 h2
              interval_cases r'
              · rw [e1]; exact h7
              · rw [e2]; exact h14
              · rw [e3]; exact h21
              · rw [e4]; exact h28
              · rw [e5]; exact h35

/-- The top-down scan of Board::remove finds exactly the square that a move
just filled: all cells above it are empty and it is occupied. -/
theorem removeSquare_set {pos : List Int} {c r : Nat} (hc : c ≤ 6) (hr : r ≤ 5)
    (hlen : pos.length = 42) {owner : Int} (howner : owner ≠ 0)
    (habove : ∀ r', r' < r → lget pos (r' * 7 + c) = 0) :
    removeSquare (pos.set (r * 7 + c) owner) c = r * 7 + c := by
  have hset_at : lget (pos.set (r * 7 + c) owner) (r * 7 + c) = owner := by
    apply lget_set_eq
    omega
  have hset_below : ∀ k, k < r → lget (pos.set (r * 7 + c) owner) (k * 7 + c) = 0 := by
    intro k hk
    rw [lget_set_ne owner (by omega)]
    exact habove k hk
  interval_cases r
  · rw [(show (0 : Nat) * 7 + c = c by omega)] at hset_at hset_below ⊢
    rw [removeSquare]
    rw [if_pos (by rw [hset_at]; exact howner)]
    omega
  · rw [(show (1 : Nat) * 7 + c = 7 + c by omega)] at hset_at hset_below ⊢
    have t0 : lget (pos.set (7 + c) owner) (c) = 0 := by
      have hb := hset_below 0 (by omega)
      rwa [(show (0 : Nat) * 7 + c = c by omega)] at hb
    rw [removeSquare, if_neg (fun hne => hne t0)]
    rw [if_pos (by rw [hset_at]; exact howner)]
  · rw [(show (2 : Nat) * 7 + c = 14 + c by omega)] at hset_at hset_below ⊢
    have t0 : lget (pos.set (14 + c) owner) (c) = 0 := by
      have hb := hset_below 0 (by omega)
      rwa [(show (0 : Nat) * 7 + c = c by omega)] at hb
    have t1 : lget (pos.set (14 + c) owner) (7 + c) = 0 := by
      have hb := hset_below 1 (by omega)
      rwa [(show (1 : Nat) * 7 + c = 7 + c by omega)] at hb
    rw [removeSquare, if_neg (fun hne => hne t0), if_neg (fun hne => hne t1)]
    rw [if_pos (by rw [hset_at]; exact howner)]
  · rw [(show (3 : Nat) * 7 + c = 21 + c by omega)] at hset_at hset_below ⊢
    have t0 : lget (pos.set (21 + c) owner) (c) = 0 := by
      have hb := hset_below 0 (by omega)
      rwa [(show (0 : Nat) * 7 + c = c by omega)] at hb
    have t1 : lget (pos.set (21 + c) owner) (7 + c) = 0 := by
      have hb := hset_below 1 (by omega)
      rwa [(show (1 : Nat) * 7 + c = 7 + c by omega)] at hb
    have t2 : lget (pos.set (21 + c) owner) (14 + c) = 0 := by
      have hb := hset_below 2 (by omega)
      rwa [(show (2 : Nat) * 7 + c = 14 + c by omega)] at hb
    rw [removeSquare, if_neg (fun hne => hne t0), if_neg (fun hne => hne t1), if_neg (fun hne => hne t2)]
    rw [if_pos (by rw [hset_at]; exact howner)]
  · rw [(show (4 : Nat) * 7 + c = 28 + c by omega)] at hset_at hset_below ⊢
    have t0 : lget (pos.set (28 + c) owner) (c) = 0 := by
      have hb := hset_below 0 (by omega)
      rwa [(show (0 : Nat) * 7 + c = c by omega)] at hb
    have t1 : lget (pos.set (28 + c) owner) (7 + c) = 0 := by
      have hb := hset_below 1 (by omega)
      rwa [(show (1 : Nat) * 7 + c = 7 + c by omega)] at hb
    have t2 : lget (pos.set (28 + c) owner) (14 + c) = 0 := by
      have hb := hset_below 2 (by omega)
      rwa [(show (2 : Nat) * 7 + c = 14 + c by omega)] at hb
    have t3 : lget (pos.set (28 + c) owner) (21 + c) = 0 := by
      have hb := hset_below 3 (by omega)
      rwa [(show (3 : Nat) * 7 + c = 21 + c by omega)] at hb
    rw [removeSquare, if_neg (fun hne => hne t0), if_neg (fun hne => hne t1), if_neg (fun hne => hne t2), if_neg (fun hne => hne t3)]
    rw [if_pos (by rw [hset_at]; exact howner)]
  · rw [(show (5 : Nat) * 7 + c = 35 + c by omega)] at hset_at hset_below ⊢
    have t0 : lget (pos.set (35 + c) owner) (c) = 0 := by
      have hb := hset_below 0 (by omega)
      rwa [(show (0 : Nat) * 7 + c = c by omega)] at hb
    have t1 : lget (pos.set (35 + c) owner) (7 + c) = 0 := by
      have hb := hset_below 1 (by omega)
      rwa [(show (1 : Nat) * 7 + c = 7 + c by omega)] at hb
    have t2 : lget (pos.set (35 + c) owner) (14 + c) = 0 := by
      have hb := hset_below 2 (by omega)
      rwa [(show (2 : Nat) * 7 + c = 14 + c by omega)] at hb
    have t3 : lget (pos.set (35 + c) owner) (21 + c) = 0 := by
      have hb := hset_below 3 (by omega)
      rwa [(show (3 : Nat) * 7 + c = 21 + c by omega)] at hb
    have t4 : lget (pos.set (35 + c) owner) (28 + c) = 0 := by
      have hb := hset_below 4 (by omega)
      rwa [(show (4 : Nat) * 7 + c = 28 + c by omega)] at hb
    rw [removeSquare, if_neg (fun hne => hne t0), if_neg (fun hne => hne t1), if_neg (fun hne => hne t2), if_neg (fun hne => hne t3), if_neg (fun hne => hne t4)]

/-- The piece played by move is never the blank marker. -/
theorem owner_ne_zero (t : Bool) : (if t then (1 : Int) else -1) ≠ 0 := by
  cases t <;> simp

/-- A move on a legal column preserves gravity. -/
theorem gravity_move {s : BoardState} (hg : gravityOK s)
    (hlen : s.pos.length = 42) {c : Nat} (hc : c ≤ 6)
    (htop : lget s.pos c = 0) : gravityOK (move c s) := by
  obtain ⟨r, hr5, hsq, _hempty, _habove, hbelow⟩ := moveSquare_lowest hg hc htop
  intro c' hc' r' hr' hocc
  have hpos : (move c s).pos
      = s.pos.set (moveSquare s.pos c) (if s.isComputerTurn then 1 else -1) := rfl
  rw [hpos, hsq] at hocc ⊢
  by_cases hb : (r' + 1) * 7 + c' = r * 7 + c
  · rw [hb]
    have h1 : lget (s.pos.set (r * 7 + c) (if s.isComputerTurn then (1 : Int) else -1))
        (r * 7 + c) = (if s.isComputerTurn then (1 : Int) else -1) :=
      lget_set_eq _ (by omega)
    rw [h1]
    exact owner_ne_zero _
  · rw [lget_set_ne _ (Ne.symm hb)]
    by_cases ha : r' * 7 + c' = r * 7 + c
    · have hce : c' = c := by omega
      have hre : r' = r := by omega
      subst hce
      subst hre
      exact hbelow (r' + 1) (by omega) (by omega)
    · rw [lget_set_ne _ (Ne.symm ha)] at hocc
      exact hg c' hc' r' hr' hocc

theorem set_lget_self {l : List Int} {n : Nat} (h : n < l.length) :
    l.set n (lget l n) = l := by
  apply List.ext_getElem?
  intro m
  by_cases hm : n = m
  · subst hm
    rw [List.getElem?_set_self h, lget, List.getD_eq_getElem?_getD,
      List.getElem?_eq_getElem h]
    rfl
  · rw [List.getElem?_set_ne hm]

/-- Every quad listed for a square is one of the real quads 1..69. -/
theorem quadsOf_range : ∀ sq, sq < 42 → ∀ q ∈ quadsOf sq, 1 ≤ q ∧ q ≤ 69 := by
  decide

/-- The quad list of a square has no duplicates. -/
theorem quadsOf_nodup : ∀ sq, sq < 42 → (quadsOf sq).Nodup := by
  decide

/-- Every quad runs through exactly four squares. -/
theorem cellsOf_len : ∀ q, 1 ≤ q → q ≤ 69 → (cellsOf q).length = 4 := by
  decide

theorem mem_cellsOf {q sq : Nat} : sq ∈ cellsOf q ↔ sq < 42 ∧ q ∈ quadsOf sq := by
  simp [cellsOf, List.mem_filter, List.mem_range]

theorem cellsOf_nodup (q : Nat) : (cellsOf q).Nodup :=
  List.Nodup.filter _ (List.nodup_range 42)

/-- Adding a piece to a quad with room advances the quadcode along the
encode table. -/
theorem upQuadcode_encode : ∀ f : Bool, ∀ m, m < 4 → ∀ n, n < 4 → m + n ≤ 3 →
    tbl upQuadcode (encode m n + (if f then 1 else 0)) =
      encode (if f then m + 1 else m) (if f then n else n + 1) := by
  decide

/-- The score table entry for a transition is the new single-owner value of
the quad minus the old one. -/
theorem upEval_delta : ∀ f : Bool, ∀ m, m < 4 → ∀ n, n < 4 → m + n ≤ 3 →
    tbl upEval (encode m n + (if f then 1 else 0)) =
      quadVal (if f then m + 1 else m) (if f then n else n + 1) - quadVal m n := by
  decide

/-- A quad with at most three pieces has an addable code. -/
theorem encode_addable : ∀ m, m < 4 → ∀ n, n < 4 → m + n ≤ 3 →
    AddableCode (encode m n) := by
  decide

/-- The down table is a left inverse of the up table on addable codes. -/
theorem addable_round_all : ∀ f : Bool,
    ∀ c ∈ ([0, 2, 4, 6, 10, 12, 14, 18, 20, 24] : List Int),
    tbl downQuadcode (tbl upQuadcode (c + (if f then 1 else 0)) + (if f then 1 else 0)) = c := by
  decide

theorem addable_round (f : Bool) (c : Int) (hc : AddableCode c) :
    tbl downQuadcode (tbl upQuadcode (c + (if f then 1 else 0)) + (if f then 1 else 0)) = c :=
  addable_round_all f c hc

theorem foldl_upd_len (f : Bool) :
    ∀ (qs : List Nat) (X : List Int × Int),
      ((qs.foldl (updateQuad f) X).1).length = X.1.length := by
  intro qs
  induction qs with
  | nil => intro X; rfl
  | cons q rest ih =>
    intro X
    rw [List.foldl_cons, ih]
    simp [updateQuad, List.length_set]

theorem foldl_upd_notmem (f : Bool) {q : Nat} :
    ∀ (qs : List Nat) (X : List Int × Int), q ∉ qs →
      lget (qs.foldl (updateQuad f) X).1 q = lget X.1 q := by
  intro qs
  induction qs with
  | nil => intro X _; rfl
  | cons q' rest ih =>
    intro X hq
    rw [List.foldl_cons, ih _ (fun h => hq (List.mem_cons_of_mem _ h))]
    exact lget_set_ne _ (fun h => hq (by rw [h]; exact List.mem_cons_self _ _))

theorem foldl_upd_mem (f : Bool) {q : Nat} :
    ∀ (qs : List Nat) (X : List Int × Int), qs.Nodup → q ∈ qs → q < X.1.length →
      lget (qs.foldl (updateQuad f) X).1 q =
        tbl upQuadcode (lget X.1 q + (if f then 1 else 0)) := by
  intro qs
  induction qs with
  | nil => intro X _ h; exact absurd h (List.not_mem_nil q)
  | cons q' rest ih =>
    intro X hnd hq hlen
    rw [List.nodup_cons] at hnd
    rw [List.foldl_cons]
    rcases List.mem_cons.1 hq with heq | hmem
    · subst heq
      rw [foldl_upd_notmem f rest _ hnd.1]
      exact lget_set_eq _ hlen
    · rw [ih _ hnd.2 hmem (by simp [updateQuad, List.length_set]; exact hlen)]
      congr 2
      exact lget_set_ne _ (fun h => hnd.1 (by rw [h]; exact hmem))

theorem foldl_upd_sum (f : Bool) :
    ∀ (qs : List Nat) (X : List Int × Int), qs.Nodup →
      (qs.foldl (updateQuad f) X).2 =
        X.2 + ((qs.map (fun q => tbl upEval (lget X.1 q + (if f then 1 else 0)))).sum) := by
  intro qs
  induction qs with
  | nil => intro X _; simp
  | cons q rest ih =>
    intro X hnd
    rw [List.nodup_cons] at hnd
    rw [List.foldl_cons, ih _ hnd.2, List.map_cons, List.sum_cons]
    have hagree : ∀ x ∈ rest,
        (fun q' => tbl upEval (lget (updateQuad f X q).1 q' + (if f then 1 else 0))) x
          = (fun q' => tbl upEval (lget X.1 q' + (if f then 1 else 0))) x := by
      intro x hx
      simp only []
      congr 2
      exact lget_set_ne _ (fun h => hnd.1 (by rw [h]; exact hx))
    rw [List.map_congr_left hagree]
    have hupd2 : (updateQuad f X q).2 = X.2 + tbl upEval (lget X.1 q + (if f then 1 else 0)) := rfl
    rw [hupd2]
    ring

theorem upd_down_cancel (f : Bool) {X : List Int × Int} {q : Nat}
    (hq : q < X.1.length) (hc : AddableCode (lget X.1 q)) :
    downdateQuad f (updateQuad f X q) q = X := by
  have hread : lget (updateQuad f X q).1 q
      = tbl upQuadcode (lget X.1 q + (if f then 1 else 0)) :=
    lget_set_eq _ (by simpa [updateQuad, List.length_set] using hq)
  have hdown : tbl downQuadcode
      (tbl upQuadcode (lget X.1 q + (if f then 1 else 0)) + (if f then 1 else 0))
      = lget X.1 q := addable_round f _ hc
  show ((updateQuad f X q).1.set q _, _) = X
  rw [Prod.mk.injEq]
  constructor
  · show (updateQuad f X q).1.set q
        (tbl downQuadcode (lget (updateQuad f X q).1 q + (if f then 1 else 0))) = X.1
    rw [hread, hdown]
    show (X.1.set q _).set q (lget X.1 q) = X.1
    rw [List.set_set]
    exact set_lget_self hq
  · show (updateQuad f X q).2
        - tbl upEval (tbl downQuadcode (lget (updateQuad f X q).1 q + (if f then 1 else 0))
            + (if f then 1 else 0)) = X.2
    rw [hread, hdown]
    show X.2 + tbl upEval (lget X.1 q + (if f then 1 else 0))
        - tbl upEval (lget X.1 q + (if f then 1 else 0)) = X.2
    ring

theorem down_upd_comm (f : Bool) {q q' : Nat} (hne : q ≠ q') (X : List Int × Int) :
    downdateQuad f (updateQuad f X q') q = updateQuad f (downdateQuad f X q) q' := by
  have h1 : lget (X.1.set q' (tbl upQuadcode (lget X.1 q' + (if f then 1 else 0)))) q
      = lget X.1 q := lget_set_ne _ (Ne.symm hne)
  have h2 : lget (X.1.set q
        (tbl downQuadcode (lget X.1 q + (if f then 1 else 0)))) q'
      = lget X.1 q' := lget_set_ne _ hne
  simp only [updateQuad, downdateQuad, h1, h2]
  rw [Prod.mk.injEq]
  constructor
  · rw [List.set_comm _ _ _ (Ne.symm hne)]
  · ring

theorem down_foldl_comm (f : Bool) {q : Nat} :
    ∀ (qs : List Nat) (X : List Int × Int), q ∉ qs →
      downdateQuad f (qs.foldl (updateQuad f) X) q =
        qs.foldl (updateQuad f) (downdateQuad f X q) := by
  intro qs
  induction qs with
  | nil => intro X _; rfl
  | cons q' rest ih =>
    intro X hq
    rw [List.foldl_cons, List.foldl_cons,
      ih _ (fun h => hq (List.mem_cons_of_mem _ h)),
      down_upd_comm f (fun h => hq (by rw [← h]; exact List.mem_cons_self _ _)) X]

/-- Downdating the quads of a square in the same order as they were updated
restores the quad array and the running score exactly. -/
theorem foldl_down_up (f : Bool) :
    ∀ (qs : List Nat) (X : List Int × Int), qs.Nodup →
      (∀ q ∈ qs, q < X.1.length ∧ AddableCode (lget X.1 q)) →
      qs.foldl (downdateQuad f) (qs.foldl (updateQuad f) X) = X := by
  intro qs
  induction qs with
  | nil => intro X _ _; rfl
  | cons q rest ih =>
    intro X hnd hall
    rw [List.nodup_cons] at hnd
    rw [List.foldl_cons, List.foldl_cons,
      down_foldl_comm f rest _ hnd.1,
      upd_down_cancel f (hall q (List.mem_cons_self _ _)).1 (hall q (List.mem_cons_self _ _)).2]
    exact ih X hnd.2 (fun q' hq' => hall q' (List.mem_cons_of_mem _ hq'))

theorem lget_eq_getElem {l : List Int} {n : Nat} (h : n < l.length) :
    lget l n = l[n] := by
  rw [lget, List.getD_eq_getElem?_getD, List.getElem?_eq_getElem h]
  rfl

theorem countP_sum_le {α : Type} (p q : α → Bool)
    (hdisj : ∀ x, ¬(p x = true ∧ q x = true)) :
    ∀ l : List α, l.countP p + l.countP q ≤ l.length := by
  intro l
  induction l with
  | nil => simp
  | cons a t ih =>
    rw [List.countP_cons, List.countP_cons, List.length_cons]
    by_cases hp : p a = true <;> by_cases hq : q a = true
    · exact absurd ⟨hp, hq⟩ (hdisj a)
    · rw [if_pos hp, if_neg hq]
      omega
    · rw [if_neg hp, if_pos hq]
      omega
    · rw [if_neg hp, if_neg hq]
      omega

theorem countP_sum_lt {α : Type} (p q : α → Bool)
    (hdisj : ∀ x, ¬(p x = true ∧ q x = true)) :
    ∀ (l : List α) (a : α), a ∈ l → p a = false → q a = false →
      l.countP p + l.countP q + 1 ≤ l.length := by
  intro l
  induction l with
  | nil => intro a h; exact absurd h (List.not_mem_nil a)
  | cons b t ih =>
    intro a ha hpa hqa
    rw [List.countP_cons, List.countP_cons, List.length_cons]
    rcases List.mem_cons.1 ha with he | hm
    · subst he
      rw [if_neg (by simp [hpa]), if_neg (by simp [hqa])]
      have := countP_sum_le p q hdisj t
      omega
    · have := ih a hm hpa hqa
      by_cases hp : p b = true <;> by_cases hq : q b = true
      · exact absurd ⟨hp, hq⟩ (hdisj b)
      · rw [if_pos hp, if_neg hq]
        omega
      · rw [if_neg hp, if_pos hq]
        omega
      · rw [if_neg hp, if_neg hq]
        omega

theorem countP_set_mem (pred : Int → Bool) :
    ∀ (cells : List Nat), cells.Nodup → ∀ sq, sq ∈ cells →
      ∀ (pos : List Int) (v : Int), sq < pos.length → pred (lget pos sq) = false →
      cells.countP (fun x => pred (lget (pos.set sq v) x)) =
        cells.countP (fun x => pred (lget pos x)) + (if pred v then 1 else 0) := by
  intro cells
  induction cells with
  | nil => intro _ sq h; exact absurd h (List.not_mem_nil sq)
  | cons a t ih =>
    intro hnd sq hmem pos v hlen hold
    rw [List.nodup_cons] at hnd
    rw [List.countP_cons, List.countP_cons]
    rcases List.mem_cons.1 hmem with he | hm
    · subst he
      have ht : t.countP (fun x => pred (lget (pos.set sq v) x)) =
          t.countP (fun x => pred (lget pos x)) := by
        apply List.countP_congr
        intro x hx
        rw [lget_set_ne _ (fun h => hnd.1 (by rw [h]; exact hx))]
      rw [ht, lget_set_eq _ hlen, hold]
      rw [if_neg Bool.false_ne_true]
      omega
    · have hne : sq ≠ a := fun h => hnd.1 (by rw [← h]; exact hm)
      have ha : lget (pos.set sq v) a = lget pos a := lget_set_ne _ hne
      rw [ha, ih hnd.2 sq hm pos v hlen hold]
      omega

theorem countP_set_notmem (pred : Int → Bool) (cells : List Nat) (sq : Nat)
    (h : sq ∉ cells) (pos : List Int) (v : Int) :
    cells.countP (fun x => pred (lget (pos.set sq v) x)) =
      cells.countP (fun x => pred (lget pos x)) := by
  apply List.countP_congr
  intro x hx
  rw [lget_set_ne _ (fun e => h (by rw [e]; exact hx))]

/-- A move on a legal column preserves the full data invariant. -/
theorem inv_move {s : BoardState} (hInv : Inv s) {c : Nat} (hc : c ≤ 6)
    (htop : lget s.pos c = 0) : Inv (move c s) := by
  obtain ⟨r, hr5, hsqr, hempty, _habove, _hbelow⟩ :=
    moveSquare_lowest hInv.gravity hc htop
  have hsq42 : moveSquare s.pos c < 42 := by rw [hsqr]; omega
  set sq := moveSquare s.pos c with hsqdef
  set f := s.isComputerTurn with hfdef
  set owner : Int := if f then 1 else -1 with howndef
  have hpos : (move c s).pos = s.pos.set sq owner := rfl
  have hquad : (move c s).quad =
      ((quadsOf sq).foldl (updateQuad f) (s.quad, s.sumStatEval)).1 := rfl
  have hsum : (move c s).sumStatEval =
      ((quadsOf sq).foldl (updateQuad f) (s.quad, s.sumStatEval)).2 := rfl
  have hhist : (move c s).history = s.history ++ [c] := rfl
  have hqs_nd : (quadsOf sq).Nodup := quadsOf_nodup sq hsq42
  have hqs_rng : ∀ q ∈ quadsOf sq, 1 ≤ q ∧ q ≤ 69 := quadsOf_range sq hsq42
  have hdisj : ∀ x : Int, ¬((x == 1) = true ∧ (x == -1) = true) := by
    intro x ⟨h1, h2⟩
    rw [beq_iff_eq] at h1 h2
    rw [h1] at h2
    exact absurd h2 (by decide)
  have hcount_le : ∀ q ∈ quadsOf sq, cMax s q + cMin s q ≤ 3 := by
    intro q hq
    have hcell : sq ∈ cellsOf q := mem_cellsOf.2 ⟨hsq42, hq⟩
    have hlen4 : (cellsOf q).length = 4 :=
      cellsOf_len q (hqs_rng q hq).1 (hqs_rng q hq).2
    have := countP_sum_lt (fun x : Int => x == 1) (fun x : Int => x == -1) hdisj
      ((cellsOf q).map (fun x => lget s.pos x)) (lget s.pos sq)
      (List.mem_map_of_mem _ hcell)
      (by rw [hsqr, hempty]; rfl)
      (by rw [hsqr, hempty]; rfl)
    rw [List.countP_map, List.countP_map, List.length_map, hlen4] at this
    have hm : cMax s q = (cellsOf q).countP ((fun x : Int => x == 1) ∘ fun x => lget s.pos x) := rfl
    have hn : cMin s q = (cellsOf q).countP ((fun x : Int => x == -1) ∘ fun x => lget s.pos x) := rfl
    rw [hm, hn]
    omega
  have hm_lt : ∀ q ∈ quadsOf sq, cMax s q < 4 := fun q hq => by
    have := hcount_le q hq
    omega
  have hn_lt : ∀ q ∈ quadsOf sq, cMin s q < 4 := fun q hq => by
    have := hcount_le q hq
    omega
  have hownmax : ((owner == 1) : Bool) = f := by
    rw [howndef]
    cases f <;> rfl
  have hownmin : ((owner == -1) : Bool) = !f := by
    rw [howndef]
    cases f <;> rfl
  have hsqlen : sq < s.pos.length := by
    rw [hInv.posLen]
    exact hsq42
  have hemptyb1 : ((lget s.pos sq == 1) : Bool) = false := by
    rw [hsqr, hempty]
    rfl
  have hemptyb2 : ((lget s.pos sq == -1) : Bool) = false := by
    rw [hsqr, hempty]
    rfl
  have hcMax : ∀ q ∈ quadsOf sq, cMax (move c s) q = (if f then cMax s q + 1 else cMax s q) := by
    intro q hq
    have hcell : sq ∈ cellsOf q := mem_cellsOf.2 ⟨hsq42, hq⟩
    have := countP_set_mem (fun x : Int => x == 1) (cellsOf q) (cellsOf_nodup q)
      sq hcell s.pos owner hsqlen hemptyb1
    unfold cMax
    rw [hpos, this]
    simp only [hownmax]
    cases f <;> simp
  have hcMin : ∀ q ∈ quadsOf sq, cMin (move c s) q = (if f then cMin s q else cMin s q + 1) := by
    intro q hq
    have hcell : sq ∈ cellsOf q := mem_cellsOf.2 ⟨hsq42, hq⟩
    have := countP_set_mem (fun x : Int => x == -1) (cellsOf q) (cellsOf_nodup q)
      sq hcell s.pos owner hsqlen hemptyb2
    unfold cMin
    rw [hpos, this]
    simp only [hownmin]
    cases f <;> simp
  have hcMax_off : ∀ q, q ∉ quadsOf sq → cMax (move c s) q = cMax s q := by
    intro q hq
    have hcell : sq ∉ cellsOf q := fun h => hq (mem_cellsOf.1 h).2
    unfold cMax
    rw [hpos]
    exact countP_set_notmem (fun x : Int => x == 1) (cellsOf q) sq hcell s.pos owner
  have hcMin_off : ∀ q, q ∉ quadsOf sq → cMin (move c s) q = cMin s q := by
    intro q hq
    have hcell : sq ∉ cellsOf q := fun h => hq (mem_cellsOf.1 h).2
    unfold cMin
    rw [hpos]
    exact countP_set_notmem (fun x : Int => x == -1) (cellsOf q) sq hcell s.pos owner
  have hcode_new : ∀ q ∈ quadsOf sq,
      lget (move c s).quad q = encode (cMax (move c s) q) (cMin (move c s) q) := by
    intro q hq
    have hq70 : q < s.quad.length := by
      rw [hInv.quadLen]
      have := (hqs_rng q hq).2
      omega
    rw [hquad, foldl_upd_mem f _ _ hqs_nd hq hq70]
    show tbl upQuadcode (lget s.quad q + (if f then 1 else 0)) = _
    rw [hInv.codes q (hqs_rng q hq).1 (hqs_rng q hq).2,
      upQuadcode_encode f _ (hm_lt q hq) _ (hn_lt q hq) (hcount_le q hq),
      hcMax q hq, hcMin q hq]
  have hcontrib_new : ∀ q ∈ quadsOf sq,
      tbl upEval (lget s.quad q + (if f then 1 else 0)) =
        contrib (move c s) q - contrib s q := by
    intro q hq
    rw [hInv.codes q (hqs_rng q hq).1 (hqs_rng q hq).2,
      upEval_delta f _ (hm_lt q hq) _ (hn_lt q hq) (hcount_le q hq)]
    unfold contrib
    rw [hcMax q hq, hcMin q hq]
  have hcontrib_off : ∀ q, q ∉ quadsOf sq → contrib (move c s) q = contrib s q := by
    intro q hq
    unfold contrib
    rw [hcMax_off q hq, hcMin_off q hq]
  refine ⟨?_, ?_, ?_, ?_, ?_, ?_⟩
  · rw [hpos, List.length_set]
    exact hInv.posLen
  · rw [hquad, foldl_upd_len]
    exact hInv.quadLen
  · exact gravity_move hInv.gravity hInv.posLen hc htop
  · intro q h1 h69
    by_cases hq : q ∈ quadsOf sq
    · exact hcode_new q hq
    · rw [hquad, foldl_upd_notmem f _ _ hq]
      show lget s.quad q = _
      rw [hInv.codes q h1 h69, hcMax_off q hq, hcMin_off q hq]
  · rw [hsum, foldl_upd_sum f _ _ hqs_nd]
    show s.sumStatEval + _ = specSum (move c s)
    rw [List.map_congr_left hcontrib_new]
    have hsubset : (quadsOf sq).toFinset ⊆ Finset.Icc 1 69 := by
      intro q hq
      rw [List.mem_toFinset] at hq
      rw [Finset.mem_Icc]
      exact ⟨(hqs_rng q hq).1, (hqs_rng q hq).2⟩
    have hvanish : ∀ q ∈ Finset.Icc 1 69, q ∉ (quadsOf sq).toFinset →
        contrib (move c s) q - contrib s q = 0 := by
      intro q _ hq
      rw [List.mem_toFinset] at hq
      rw [hcontrib_off q hq]
      ring
    have hlist : ((quadsOf sq).map (fun q => contrib (move c s) q - contrib s q)).sum =
        ∑ q in (quadsOf sq).toFinset, (contrib (move c s) q - contrib s q) :=
      (List.sum_toFinset _ hqs_nd).symm
    rw [hlist, Finset.sum_subset hsubset hvanish, Finset.sum_sub_distrib]
    have h1 : specSum (move c s) = ∑ q in Finset.Icc 1 69, contrib (move c s) q := rfl
    have h2 : specSum s = ∑ q in Finset.Icc 1 69, contrib s q := rfl
    rw [← h1, ← h2, hInv.score]
    ring
  · rw [hpos, hhist, List.length_append]
    have hcnt := List.countP_set (fun x : Int => !(x == 0)) s.pos sq owner hsqlen
    have hat : s.pos[sq] = (0 : Int) := by
      rw [← lget_eq_getElem hsqlen, hsqr]
      exact hempty
    rw [hat] at hcnt
    have howner_t : ((!(owner == 0)) : Bool) = true := by
      rw [howndef]
      cases f <;> rfl
    rw [howner_t] at hcnt
    have hzero : ((!((0 : Int) == 0)) : Bool) = false := rfl
    rw [hzero, if_neg Bool.false_ne_true, if_pos rfl] at hcnt
    rw [hcnt, hInv.pieces]
    simp only [Nat.sub_zero, List.length_singleton]

theorem boardstate_eq {a b : BoardState} (h1 : a.pos = b.pos)
    (h2 : a.quad = b.quad) (h3 : a.sumStatEval = b.sumStatEval)
    (h4 : a.history = b.history) (h5 : a.isComputerTurn = b.isComputerTurn) :
    a = b := by
  cases a
  cases b
  simp_all

/-- Quads through an empty square are not yet full. -/
theorem counts_le_of_empty {s : BoardState} (hInv : Inv s) {sq : Nat}
    (hsq42 : sq < 42) (hempty : lget s.pos sq = 0) :
    ∀ q ∈ quadsOf sq, cMax s q + cMin s q ≤ 3 := by
  intro q hq
  have hqs_rng := quadsOf_range sq hsq42
  have hcell : sq ∈ cellsOf q := mem_cellsOf.2 ⟨hsq42, hq⟩
  have hlen4 : (cellsOf q).length = 4 :=
    cellsOf_len q (hqs_rng q hq).1 (hqs_rng q hq).2
  have hdisj : ∀ x : Int, ¬((x == 1) = true ∧ (x == -1) = true) := by
    intro x ⟨h1, h2⟩
    rw [beq_iff_eq] at h1 h2
    rw [h1] at h2
    exact absurd h2 (by decide)
  have := countP_sum_lt (fun x : Int => x == 1) (fun x : Int => x == -1) hdisj
    ((cellsOf q).map (fun x => lget s.pos x)) (lget s.pos sq)
    (List.mem_map_of_mem _ hcell)
    (by rw [hempty]; rfl)
    (by rw [hempty]; rfl)
  rw [List.countP_map, List.countP_map, List.length_map, hlen4] at this
  have hm : cMax s q = (cellsOf q).countP ((fun x : Int => x == 1) ∘ fun x => lget s.pos x) := rfl
  have hn : cMin s q = (cellsOf q).countP ((fun x : Int => x == -1) ∘ fun x => lget s.pos x) := rfl
  rw [hm, hn]
  omega

/-- Every quad touched by a move has an addable code under the invariant. -/
theorem quads_addable {s : BoardState} (hInv : Inv s) {sq : Nat}
    (hsq42 : sq < 42) (hempty : lget s.pos sq = 0) :
    ∀ q ∈ quadsOf sq, q < s.quad.length ∧ AddableCode (lget s.quad q) := by
  intro q hq
  have hqs_rng := quadsOf_range sq hsq42
  have hle := counts_le_of_empty hInv hsq42 hempty q hq
  constructor
  · rw [hInv.quadLen]
    have := (hqs_rng q hq).2
    omega
  · rw [hInv.codes q (hqs_rng q hq).1 (hqs_rng q hq).2]
    exact encode_addable _ (by omega) _ (by omega) hle

/-- Undoing a move withdraws exactly the piece the move placed and restores
every component of the engine state. -/
theorem remove_move {s : BoardState} (hInv : Inv s) {c : Nat} (hc : c ≤ 6)
    (htop : lget s.pos c = 0) : remove (move c s) = s := by
  obtain ⟨r, hr5, hsqr, hempty, habove, _hbelow⟩ :=
    moveSquare_lowest hInv.gravity hc htop
  have hsq42 : moveSquare s.pos c < 42 := by rw [hsqr]; omega
  have hposm : (move c s).pos
      = s.pos.set (moveSquare s.pos c) (if s.isComputerTurn then 1 else -1) := rfl
  have hhistm : (move c s).history = s.history ++ [c] := rfl
  have hgl : (move c s).history.getLastD 0 = c := by
    rw [hhistm]
    exact List.getLastD_concat _ _ _
  have hturnm : (move c s).isComputerTurn = !s.isComputerTurn := rfl
  have hnn : (!(move c s).isComputerTurn) = s.isComputerTurn := by
    rw [hturnm, Bool.not_not]
  have hsq' : removeSquare (move c s).pos ((move c s).history.getLastD 0)
      = moveSquare s.pos c := by
    rw [hgl, hposm, hsqr]
    exact removeSquare_set hc hr5 hInv.posLen (owner_ne_zero _) habove
  have hpair : ((move c s).quad, (move c s).sumStatEval)
      = (quadsOf (moveSquare s.pos c)).foldl (updateQuad s.isComputerTurn)
          (s.quad, s.sumStatEval) := rfl
  have hfold : (quadsOf (moveSquare s.pos c)).foldl (downdateQuad s.isComputerTurn)
      ((quadsOf (moveSquare s.pos c)).foldl (updateQuad s.isComputerTurn)
        (s.quad, s.sumStatEval))
      = (s.quad, s.sumStatEval) :=
    foldl_down_up _ _ _ (quadsOf_nodup _ hsq42)
      (quads_addable hInv hsq42 (by rw [hsqr]; exact hempty))
  have hquad_rm : (remove (move c s)).quad
      = ((quadsOf (removeSquare (move c s).pos ((move c s).history.getLastD 0))).foldl
          (downdateQuad (!(move c s).isComputerTurn))
          ((move c s).quad, (move c s).sumStatEval)).1 := rfl
  have hsum_rm : (remove (move c s)).sumStatEval
      = ((quadsOf (removeSquare (move c s).pos ((move c s).history.getLastD 0))).foldl
          (downdateQuad (!(move c s).isComputerTurn))
          ((move c s).quad, (move c s).sumStatEval)).2 := rfl
  have hpos_rm : (remove (move c s)).pos
      = (move c s).pos.set
          (removeSquare (move c s).pos ((move c s).history.getLastD 0)) 0 := rfl
  apply boardstate_eq
  · rw [hpos_rm, hsq', hposm, List.set_set]
    apply set_zero_of_lget
    rw [hsqr]
    exact hempty
  · rw [hquad_rm, hsq', hnn, hpair, hfold]
  · rw [hsum_rm, hsq', hnn, hpair, hfold]
  · show (move c s).history.dropLast = s.history
    rw [hhistm]
    exact List.dropLast_concat
  · show (!(move c s).isComputerTurn) = s.isComputerTurn
    exact hnn

/-- The invariant holds in a fresh board regardless of who moves first. -/
theorem inv_start (t : Bool) : Inv { initBoard with isComputerTurn := t } := by
  have hcMax : ∀ q, cMax { initBoard with isComputerTurn := t } q = 0 := by
    intro q
    apply List.countP_eq_zero.2
    intro sq _
    show ¬(lget initBoard.pos sq == 1) = true
    rw [lget_init]
    decide
  have hcMin : ∀ q, cMin { initBoard with isComputerTurn := t } q = 0 := by
    intro q
    apply List.countP_eq_zero.2
    intro sq _
    show ¬(lget initBoard.pos sq == -1) = true
    rw [lget_init]
    decide
  refine ⟨?_, ?_, ?_, ?_, ?_, ?_⟩
  · show (List.replicate 42 (0 : Int)).length = 42
    simp
  · show (List.replicate 70 (0 : Int)).length = 70
    simp
  · intro c _hc r _hr hocc
    exact absurd (lget_replicate 42 (r * 7 + c)) hocc
  · intro q _h1 _h69
    rw [hcMax, hcMin]
    show lget (List.replicate 70 0) q = encode 0 0
    rw [lget_replicate]
    rfl
  · show (0 : Int) = specSum _
    unfold specSum
    have hz : ∀ q ∈ Finset.Icc 1 69,
        contrib { initBoard with isComputerTurn := t } q = 0 := by
      intro q _
      rw [contrib, hcMax, hcMin]
      rfl
    rw [Finset.sum_congr rfl hz]
    simp
  · show (List.replicate 42 (0 : Int)).countP (fun x => !(x == 0)) = ([] : List Nat).length
    have hz : (List.replicate 42 (0 : Int)).countP (fun x => !(x == 0)) = 0 := by
      apply List.countP_eq_zero.2
      intro a ha
      rw [List.eq_of_mem_replicate ha]
      decide
    rw [hz]
    rfl

/-- Every reachable position satisfies the data invariant. -/
theorem reachable_inv {s : BoardState} (h : Reachable s) : Inv s := by
  induction h with
  | start t => exact inv_start t
  | play s c _hs hL ih => exact inv_move ih hL.1 hL.2.1

end Lemmas

theorem top_ne_iff_full {s : BoardState} (hg : gravityOK s) {c : Nat} (hc : c ≤ 6) :
    lget s.pos c ≠ 0 ↔ columnFull s c := by
  constructor
  · intro h r hr
    have h0 : lget s.pos (0 * 7 + c) ≠ 0 := by
      rw [(show 0 * 7 + c = c by omega)]
      exact h
    exact grav_chain hg (by omega) (Nat.zero_le r) hr h0
  · intro h
    have := h 0 (by omega)
    rwa [(show 0 * 7 + c = c by omega)] at this

/-- Claim C1: on any reachable position, playing a legal column and then
undoing it restores the exact prior state: board array, all quadcodes, the
running score, the side to move, and the history (hence the move count). -/
theorem C1_move_remove_roundtrip (s : BoardState) (c : Nat)
    (hs : Reachable s) (hL : LegalMove s c) : remove (move c s) = s :=
  remove_move (reachable_inv hs) hL.1 hL.2.1

/-- Witness for C1 at a concrete reachable position. -/
theorem C1_move_remove_roundtrip_witness :
    remove (move 4 (move 3 initBoard)) = move 3 initBoard :=
  C1_move_remove_roundtrip (move 3 initBoard) 4
    (Reachable.play initBoard 3 (Reachable.start false) (by decide))
    (by decide)




/-- Claim C2 counterexample: on the reachable position where the human has
stacked three pieces in column 0, the engine score and the symmetric-weight
sum of the specification text disagree, because the code weighs three human
pieces as -18 while the specification claims -17. -/
theorem C2_symmetric_weights_counterexample :
    Reachable c2state ∧ c2state.sumStatEval ≠ specSumSym c2state := by
  constructor
  · have r0 : Reachable initBoard := Reachable.start false
    have r1 : Reachable (move 0 initBoard) :=
      Reachable.play _ 0 r0 (by decide)
    have r2 : Reachable (move 6 (move 0 initBoard)) :=
      Reachable.play _ 6 r1 (by decide)
    have r3 : Reachable (move 0 (move 6 (move 0 initBoard))) :=
      Reachable.play _ 0 r2 (by decide)
    have r4 : Reachable (move 6 (move 0 (move 6 (move 0 initBoard)))) :=
      Reachable.play _ 6 r3 (by decide)
    exact Reachable.play _ 0 r4 (by decide)
  · decide

/-- Claim C2 as amended: on every reachable position the running score
m_sumStatEval equals the sum over all 69 lines of the line contributions,
where a line with k pieces of a single owner contributes +(1, 3, 17, 2000)
at k = 1..4 for the computer and -(1, 3, 18, 2000) for the human (the code
weighs three human pieces as -18, not -17), and dead or empty lines
contribute 0. -/
theorem C2_score_matches_quad_sum (s : BoardState) (hs : Reachable s) :
    s.sumStatEval = specSum s :=
  (reachable_inv hs).score

/-- Witness for the amended C2 at a concrete reachable position. -/
theorem C2_score_matches_quad_sum_witness :
    c2state.sumStatEval = specSum c2state := by
  apply C2_score_matches_quad_sum
  have r0 : Reachable initBoard := Reachable.start false
  have r1 : Reachable (move 0 initBoard) :=
    Reachable.play _ 0 r0 (by decide)
  have r2 : Reachable (move 6 (move 0 initBoard)) :=
    Reachable.play _ 6 r1 (by decide)
  have r3 : Reachable (move 0 (move 6 (move 0 initBoard))) :=
    Reachable.play _ 0 r2 (by decide)
  have r4 : Reachable (move 6 (move 0 (move 6 (move 0 initBoard)))) :=
    Reachable.play _ 6 r3 (by decide)
  exact Reachable.play _ 0 r4 (by decide)

/-- Claim C8: every reachable position satisfies gravity, a legal move
lands on the lowest empty cell of its column, and the move preserves
gravity. -/
theorem C8_gravity_invariant (s : BoardState) (hs : Reachable s) :
    gravityOK s ∧ ∀ c, LegalMove s c →
      gravityOK (move c s) ∧ lowestEmpty s c (moveSquare s.pos c) := by
  have hInv := reachable_inv hs
  refine ⟨hInv.gravity, ?_⟩
  intro c hL
  constructor
  · exact gravity_move hInv.gravity hInv.posLen hL.1 hL.2.1
  · obtain ⟨r, hr5, hsqr, hempty, _habove, hbelow⟩ :=
      moveSquare_lowest hInv.gravity hL.1 hL.2.1
    exact ⟨r, hr5, hsqr, by rw [hsqr]; exact hempty, hbelow⟩

/-- Witness for C8 at a concrete reachable position. -/
theorem C8_gravity_invariant_witness :
    gravityOK (move 3 initBoard) ∧
      gravityOK (move 4 (move 3 initBoard)) ∧
      lowestEmpty (move 3 initBoard) 4 (moveSquare (move 3 initBoard).pos 4) := by
  have hr : Reachable (move 3 initBoard) :=
    Reachable.play _ 3 (Reachable.start false) (by decide)
  have h := C8_gravity_invariant (move 3 initBoard) hr
  exact ⟨h.1, (h.2 4 (by decide)).1, (h.2 4 (by decide)).2⟩

/-- Claim C5: takeHumanTurn returns the sentinel -1 with the state intact
exactly when the game is over, the column is out of range, or the column is
full; otherwise it plays the requested column, dropping a piece of the side
to move on the lowest empty cell of that column. -/
theorem C5_takeHumanTurn (s : BoardState) (hs : Reachable s) (colMove : Int) :
    ((takeHumanTurn s colMove = (-1, s)) ↔
      (isGameOver s = true ∨ colMove < 0 ∨ colMove > 6 ∨
        columnFull s colMove.toNat)) ∧
    (¬(isGameOver s = true ∨ colMove < 0 ∨ colMove > 6 ∨
        columnFull s colMove.toNat) →
      takeHumanTurn s colMove = (colMove, move colMove.toNat s) ∧
      lowestEmpty s colMove.toNat (moveSquare s.pos colMove.toNat) ∧
      lget (move colMove.toNat s).pos (moveSquare s.pos colMove.toNat)
        = (if s.isComputerTurn then 1 else -1)) := by
  have hInv := reachable_inv hs
  have hg := hInv.gravity
  have hPQ : (isGameOver s = true ∨ colMove < 0 ∨ colMove > 6 ∨
      lget s.pos colMove.toNat ≠ 0) ↔
      (isGameOver s = true ∨ colMove < 0 ∨ colMove > 6 ∨
      columnFull s colMove.toNat) := by
    by_cases hr : 0 ≤ colMove ∧ colMove ≤ 6
    · have hc6 : colMove.toNat ≤ 6 := by omega
      have hiff := top_ne_iff_full hg hc6
      constructor
      · rintro (h | h | h | h)
        · exact Or.inl h
        · exact Or.inr (Or.inl h)
        · exact Or.inr (Or.inr (Or.inl h))
        · exact Or.inr (Or.inr (Or.inr (hiff.1 h)))
      · rintro (h | h | h | h)
        · exact Or.inl h
        · exact Or.inr (Or.inl h)
        · exact Or.inr (Or.inr (Or.inl h))
        · exact Or.inr (Or.inr (Or.inr (hiff.2 h)))
    · have : colMove < 0 ∨ colMove > 6 := by omega
      rcases this with h | h
      · exact ⟨fun _ => Or.inr (Or.inl h), fun _ => Or.inr (Or.inl h)⟩
      · exact ⟨fun _ => Or.inr (Or.inr (Or.inl h)),
          fun _ => Or.inr (Or.inr (Or.inl h))⟩
  have hcondP : ((isGameOver s || decide (colMove < 0) || decide (colMove > 6)
      || decide (lget s.pos colMove.toNat ≠ 0)) = true) ↔
      (isGameOver s = true ∨ colMove < 0 ∨ colMove > 6 ∨
        lget s.pos colMove.toNat ≠ 0) := by
    simp [Bool.or_eq_true, decide_eq_true_eq, or_assoc]
  have hunfail : ((isGameOver s || decide (colMove < 0) || decide (colMove > 6)
      || decide (lget s.pos colMove.toNat ≠ 0)) = true) →
      takeHumanTurn s colMove = (-1, s) := by
    intro h
    unfold takeHumanTurn
    rw [if_pos h]
  have hunsucc : ¬((isGameOver s || decide (colMove < 0) || decide (colMove > 6)
      || decide (lget s.pos colMove.toNat ≠ 0)) = true) →
      takeHumanTurn s colMove = (colMove, move colMove.toNat s) := by
    intro h
    unfold takeHumanTurn
    rw [if_neg h]
  constructor
  · constructor
    · intro hres
      by_cases hb : (isGameOver s || decide (colMove < 0) || decide (colMove > 6)
          || decide (lget s.pos colMove.toNat ≠ 0)) = true
      · exact hPQ.1 (hcondP.1 hb)
      · exfalso
        rw [hunsucc hb, Prod.mk.injEq] at hres
        have hcm : colMove = -1 := hres.1
        exact hb (hcondP.2 (Or.inr (Or.inl (by omega))))
    · intro hq
      exact hunfail (hcondP.2 (hPQ.2 hq))
  · intro hnq
    have hnp := fun hp => hnq (hPQ.1 hp)
    have hb : ¬((isGameOver s || decide (colMove < 0) || decide (colMove > 6)
        || decide (lget s.pos colMove.toNat ≠ 0)) = true) :=
      fun h => hnp (hcondP.1 h)
    push_neg at hnq
    obtain ⟨_hgo, h0, h6, hfull⟩ := hnq
    have hc6 : colMove.toNat ≤ 6 := by omega
    have htop : lget s.pos colMove.toNat = 0 := by
      by_contra htne
      exact hfull ((top_ne_iff_full hg hc6).1 htne)
    obtain ⟨r, hr5, hsqr, hempty, _habove, hbelow⟩ :=
      moveSquare_lowest hg hc6 htop
    refine ⟨hunsucc hb, ⟨r, hr5, hsqr, by rw [hsqr]; exact hempty, hbelow⟩, ?_⟩
    show lget (s.pos.set (moveSquare s.pos colMove.toNat)
      (if s.isComputerTurn then 1 else -1)) (moveSquare s.pos colMove.toNat) = _
    apply lget_set_eq
    rw [hInv.posLen, hsqr]
    omega

/-- Witness for C5 at a concrete reachable position and argument. -/
theorem C5_takeHumanTurn_witness :
    (takeHumanTurn initBoard 9 = (-1, initBoard)) ∧
      takeHumanTurn initBoard 3 = (3, move 3 initBoard) := by
  have h9 := C5_takeHumanTurn initBoard (Reachable.start false) 9
  have h3 := C5_takeHumanTurn initBoard (Reachable.start false) 3
  constructor
  · exact h9.1.2 (by right; right; left; decide)
  · exact (h3.2 (by
      rintro (h | h | h | h)
      · exact absurd h (by decide)
      · exact absurd h (by decide)
      · exact absurd h (by decide)
      · exact absurd (h 0 (by omega)) (by decide))).1

/-- Claim C9: takeBackMove returns the sentinel -1 and leaves the state
unchanged when no move has been made, and otherwise removes the most
recently placed piece, restoring the prior state and returning the column
it came from. -/
theorem C9_takeBackMove :
    (∀ s : BoardState, s.history = [] → takeBackMove s = (-1, s)) ∧
    (∀ (s : BoardState) (c : Nat), Reachable s → LegalMove s c →
      takeBackMove (move c s) = ((c : Int), s)) := by
  constructor
  · intro s h
    unfold takeBackMove
    rw [if_neg (by rw [h]; simp)]
  · intro s c hs hL
    unfold takeBackMove
    have hlen : (move c s).history.length ≠ 0 := by
      show (s.history ++ [c]).length ≠ 0
      simp
    rw [if_pos hlen]
    have h1 : (move c s).history.getLastD 0 = c := by
      show (s.history ++ [c]).getLastD 0 = c
      exact List.getLastD_concat _ _ _
    rw [h1, remove_move (reachable_inv hs) hL.1 hL.2.1]

/-- Witness for C9 at a concrete position. -/
theorem C9_takeBackMove_witness :
    takeBackMove (move 2 initBoard) = ((2 : Int), initBoard) :=
  C9_takeBackMove.2 initBoard 2 (Reachable.start false) (by decide)

/-- Claim C7: the difficulty mapping of setDifficulty: depth d+1 and equal
chances 0.1(d+1) for d in 0..4, depth 5+2(d-4) for d in 5..7, depth
11+3(d-7) for d in 8..9 with chancePickBest 0.1(d+1) and
chancePickSecondBest its complement for d in 5..9, and the documented
default 4 for every out-of-range request. -/
theorem C7_setDifficulty (d : Int) :
    (0 ≤ d → d ≤ 4 → setDifficulty d
      = (d, d + 1, (1 / 10) * ((d : ℚ) + 1), (1 / 10) * ((d : ℚ) + 1))) ∧
    (5 ≤ d → d ≤ 7 → setDifficulty d
      = (d, 5 + 2 * (d - 4), (1 / 10) * ((d : ℚ) + 1),
          1 - (1 / 10) * ((d : ℚ) + 1))) ∧
    (8 ≤ d → d ≤ 9 → setDifficulty d
      = (d, 11 + 3 * (d - 7), (1 / 10) * ((d : ℚ) + 1),
          1 - (1 / 10) * ((d : ℚ) + 1))) ∧
    ((d < 0 ∨ d > 9) → setDifficulty d = setDifficulty 4) := by
  refine ⟨?_, ?_, ?_, ?_⟩
  · intro h0 h4
    simp only [setDifficulty]
    rw [if_neg (by omega)]
    rw [if_pos (by omega : d ≤ 4), if_pos (by omega : d ≤ 4)]
  · intro h5 h7
    simp only [setDifficulty]
    rw [if_neg (by omega)]
    rw [if_neg (by omega : ¬(d ≤ 4)), if_pos (by omega : d ≤ 7),
      if_neg (by omega : ¬(d ≤ 4))]
  · intro h8 h9
    simp only [setDifficulty]
    rw [if_neg (by omega)]
    rw [if_neg (by omega : ¬(d ≤ 4)), if_neg (by omega : ¬(d ≤ 7)),
      if_neg (by omega : ¬(d ≤ 4))]
  · intro h
    simp only [setDifficulty]
    rw [if_pos h]
    norm_num

/-- Witness for C7 at concrete difficulties 6 and 11. -/
theorem C7_setDifficulty_witness :
    setDifficulty 6 = (6, 5 + 2 * (6 - 4), (1 / 10) * ((6 : ℚ) + 1),
        1 - (1 / 10) * ((6 : ℚ) + 1)) ∧
      setDifficulty 11 = setDifficulty 4 :=
  ⟨(C7_setDifficulty 6).2.1 (by decide) (by decide),
   (C7_setDifficulty 11).2.2.2 (Or.inr (by decide))⟩

theorem getLastD_mem {l : List Nat} (h : l ≠ []) (d : Nat) : l.getLastD d ∈ l := by
  induction l generalizing d with
  | nil => exact absurd rfl h
  | cons a t ih =>
    cases t with
    | nil => simp
    | cons b u =>
      rw [List.getLastD_cons]
      exact List.mem_cons_of_mem _ (ih (by simp) a)

theorem getLastD_eq_getLast {l : List Nat} (h : l ≠ []) (d : Nat) :
    l.getLastD d = l.getLast h := by
  rw [List.getLastD_eq_getLast?, List.getLast?_eq_getLast l h]
  rfl

theorem mem_rotate_last {l : List Nat} (h : l ≠ []) (x : Nat) :
    x ∈ (l.getLastD 0 :: l.dropLast) ↔ x ∈ l := by
  constructor
  · intro hx
    rcases List.mem_cons.1 hx with he | hm
    · rw [he]
      exact getLastD_mem h 0
    · exact List.dropLast_subset l hm
  · intro hx
    rw [← List.dropLast_append_getLast h] at hx
    rcases List.mem_append.1 hx with hm | hm
    · exact List.mem_cons_of_mem _ hm
    · rw [List.mem_singleton] at hm
      rw [hm, ← getLastD_eq_getLast h 0]
      exact List.mem_cons_self _ _

/-- Every column surviving the prune loop came from the candidate list or
the already confirmed prefix, and a surviving candidate is never full. -/
theorem pruneMoves_mem (pos : List Int) :
    ∀ (done pending : List Nat) (x : Nat), x ∈ pruneMoves pos done pending →
      x ∈ done ∨ (x ∈ pending ∧ lget pos x = 0) := by
  intro done pending
  induction done, pending using pruneMoves.induct pos with
  | case1 done =>
    intro x hx
    rw [pruneMoves] at hx
    exact Or.inl hx
  | case2 done m hm =>
    intro x hx
    rw [pruneMoves, if_pos hm] at hx
    exact Or.inl hx
  | case3 done m hm ih =>
    intro x hx
    rw [pruneMoves, if_neg hm] at hx
    rcases ih x hx with hd | hp
    · rcases List.mem_append.1 hd with h1 | h1
      · exact Or.inl h1
      · rw [List.mem_singleton] at h1
        refine Or.inr ⟨by rw [h1]; exact List.mem_cons_self _ _, ?_⟩
        rw [h1]
        exact not_not.1 hm
    · exact absurd hp.1 (List.not_mem_nil x)
  | case4 done m h t hm ih =>
    intro x hx
    rw [pruneMoves, if_pos hm] at hx
    rcases ih x hx with hd | hp
    · exact Or.inl hd
    · refine Or.inr ⟨?_, hp.2⟩
      exact List.mem_cons_of_mem _ ((mem_rotate_last (by simp) x).1 hp.1)
  | case5 done m h t hm ih =>
    intro x hx
    rw [pruneMoves, if_neg hm] at hx
    rcases ih x hx with hd | hp
    · rcases List.mem_append.1 hd with h1 | h1
      · exact Or.inl h1
      · rw [List.mem_singleton] at h1
        refine Or.inr ⟨by rw [h1]; exact List.mem_cons_self _ _, ?_⟩
        rw [h1]
        exact not_not.1 hm
    · exact Or.inr ⟨List.mem_cons_of_mem _ hp.1, hp.2⟩

/-- The prune loop never discards the already confirmed prefix. -/
theorem pruneMoves_done_sub (pos : List Int) :
    ∀ (done pending : List Nat) (x : Nat), x ∈ done →
      x ∈ pruneMoves pos done pending := by
  intro done pending
  induction done, pending using pruneMoves.induct pos with
  | case1 done =>
    intro x hx
    rw [pruneMoves]
    exact hx
  | case2 done m hm =>
    intro x hx
    rw [pruneMoves, if_pos hm]
    exact hx
  | case3 done m hm ih =>
    intro x hx
    rw [pruneMoves, if_neg hm]
    exact ih x (List.mem_append.2 (Or.inl hx))
  | case4 done m h t hm ih =>
    intro x hx
    rw [pruneMoves, if_pos hm]
    exact ih x hx
  | case5 done m h t hm ih =>
    intro x hx
    rw [pruneMoves, if_neg hm]
    exact ih x (List.mem_append.2 (Or.inl hx))

/-- The prune loop keeps at least one column when the pending list holds a
playable one. -/
theorem pruneMoves_ne_nil (pos : List Int) :
    ∀ (done pending : List Nat), (∃ x ∈ pending, lget pos x = 0) →
      pruneMoves pos done pending ≠ [] := by
  intro done pending
  induction done, pending using pruneMoves.induct pos with
  | case1 done =>
    rintro ⟨x, hx, _⟩
    exact absurd hx (List.not_mem_nil x)
  | case2 done m hm =>
    rintro ⟨x, hx, hleg⟩
    rw [List.mem_singleton] at hx
    rw [hx] at hleg
    exact absurd hleg hm
  | case3 done m hm ih =>
    intro _
    rw [pruneMoves, if_neg hm]
    intro hnil
    have : m ∈ pruneMoves pos (done ++ [m]) [] :=
      pruneMoves_done_sub pos _ _ m (List.mem_append.2 (Or.inr (List.mem_singleton.2 rfl)))
    rw [hnil] at this
    exact absurd this (List.not_mem_nil m)
  | case4 done m h t hm ih =>
    rintro ⟨x, hx, hleg⟩
    rw [pruneMoves, if_pos hm]
    apply ih
    refine ⟨x, ?_, hleg⟩
    rcases List.mem_cons.1 hx with he | hmem
    · rw [he] at hleg
      exact absurd hleg hm
    · exact (mem_rotate_last (by simp) x).2 hmem
  | case5 done m h t hm ih =>
    intro _
    rw [pruneMoves, if_neg hm]
    intro hnil
    have : m ∈ pruneMoves pos (done ++ [m]) (h :: t) :=
      pruneMoves_done_sub pos _ _ m (List.mem_append.2 (Or.inr (List.mem_singleton.2 rfl)))
    rw [hnil] at this
    exact absurd this (List.not_mem_nil m)

/-- The inner selection scan returns an index inside the array. -/
theorem selBig_lt (key : Nat → Int) (moves : List Nat) :
    ∀ (n : Nat) (bigval : Int) (bigindex j : Nat), moves.length - j ≤ n →
      bigindex < moves.length →
      selBig key moves bigval bigindex j < moves.length := by
  intro n
  induction n with
  | zero =>
    intro bigval bigindex j hle hbi
    rw [selBig, if_neg (by omega)]
    exact hbi
  | succ n ih =>
    intro bigval bigindex j hle hbi
    rw [selBig]
    by_cases hj : j < moves.length
    · rw [if_pos hj]
      by_cases hgt : key (moves.getD j 0) > bigval
      · rw [if_pos hgt]
        exact ih _ _ _ (by omega) hj
      · rw [if_neg hgt]
        exact ih _ _ _ (by omega) hbi
    · rw [if_neg hj]
      exact hbi

theorem selSmall_lt (key : Nat → Int) (moves : List Nat) :
    ∀ (n : Nat) (smallval : Int) (smallindex j : Nat), moves.length - j ≤ n →
      smallindex < moves.length →
      selSmall key moves smallval smallindex j < moves.length := by
  intro n
  induction n with
  | zero =>
    intro smallval smallindex j hle hsi
    rw [selSmall, if_neg (by omega)]
    exact hsi
  | succ n ih =>
    intro smallval smallindex j hle hsi
    rw [selSmall]
    by_cases hj : j < moves.length
    · rw [if_pos hj]
      by_cases hlt : key (moves.getD j 0) < smallval
      · rw [if_pos hlt]
        exact ih _ _ _ (by omega) hj
      · rw [if_neg hlt]
        exact ih _ _ _ (by omega) hsi
    · rw [if_neg hj]
      exact hsi

theorem swapL_length (l : List Nat) (i j : Nat) :
    (swapL l i j).length = l.length := by
  simp [swapL, List.length_set]

theorem swapL_subset {l : List Nat} {i j : Nat} (hi : i < l.length)
    (hj : j < l.length) {x : Nat} (h : x ∈ swapL l i j) : x ∈ l := by
  rcases List.mem_or_eq_of_mem_set h with h1 | h1
  · rcases List.mem_or_eq_of_mem_set h1 with h2 | h2
    · exact h2
    · rw [h2, List.getD_eq_getElem?_getD, List.getElem?_eq_getElem hj]
      exact List.getElem_mem hj
  · rw [h1, List.getD_eq_getElem?_getD, List.getElem?_eq_getElem hi]
    exact List.getElem_mem hi

theorem ssortDesc_length (key : Nat → Int) :
    ∀ (n : Nat) (moves : List Nat) (i : Nat), moves.length - i ≤ n →
      (ssortDesc key moves i).length = moves.length := by
  intro n
  induction n with
  | zero =>
    intro moves i hle
    rw [ssortDesc, if_neg (by omega)]
  | succ n ih =>
    intro moves i hle
    by_cases hlt : i + 1 < moves.length
    · rw [ssortDesc, if_pos hlt]
      simp only []
      have hlen2 : (if selBig key moves (key (moves.getD i 0)) 0 (i + 1) ≠ 0 then
          swapL moves i (selBig key moves (key (moves.getD i 0)) 0 (i + 1))
          else moves).length = moves.length := by
        by_cases hb : selBig key moves (key (moves.getD i 0)) 0 (i + 1) ≠ 0
        · rw [if_pos hb, swapL_length]
        · rw [if_neg hb]
      rw [ih _ _ (by rw [hlen2]; omega), hlen2]
    · rw [ssortDesc, if_neg hlt]

theorem ssortAsc_length (key : Nat → Int) :
    ∀ (n : Nat) (moves : List Nat) (i : Nat), moves.length - i ≤ n →
      (ssortAsc key moves i).length = moves.length := by
  intro n
  induction n with
  | zero =>
    intro moves i hle
    rw [ssortAsc, if_neg (by omega)]
  | succ n ih =>
    intro moves i hle
    by_cases hlt : i + 1 < moves.length
    · rw [ssortAsc, if_pos hlt]
      simp only []
      have hlen2 : (if selSmall key moves (key (moves.getD i 0)) 0 (i + 1) ≠ 0 then
          swapL moves i (selSmall key moves (key (moves.getD i 0)) 0 (i + 1))
          else moves).length = moves.length := by
        by_cases hb : selSmall key moves (key (moves.getD i 0)) 0 (i + 1) ≠ 0
        · rw [if_pos hb, swapL_length]
        · rw [if_neg hb]
      rw [ih _ _ (by rw [hlen2]; omega), hlen2]
    · rw [ssortAsc, if_neg hlt]

theorem ssortDesc_subset (key : Nat → Int) :
    ∀ (n : Nat) (moves : List Nat) (i : Nat), moves.length - i ≤ n →
      ∀ x, x ∈ ssortDesc key moves i → x ∈ moves := by
  intro n
  induction n with
  | zero =>
    intro moves i hle x hx
    rwa [ssortDesc, if_neg (by omega)] at hx
  | succ n ih =>
    intro moves i hle x hx
    by_cases hlt : i + 1 < moves.length
    · rw [ssortDesc, if_pos hlt] at hx
      simp only [] at hx
      by_cases hb : selBig key moves (key (moves.getD i 0)) 0 (i + 1) ≠ 0
      · rw [if_pos hb] at hx
        have hbi : selBig key moves (key (moves.getD i 0)) 0 (i + 1) < moves.length :=
          selBig_lt key moves (moves.length - (i + 1)) _ _ _ (by omega) (by omega)
        have hx2 := ih _ _ (by rw [swapL_length]; omega) x hx
        exact swapL_subset (by omega) hbi hx2
      · rw [if_neg hb] at hx
        exact ih _ _ (by omega) x hx
    · rwa [ssortDesc, if_neg hlt] at hx

theorem ssortAsc_subset (key : Nat → Int) :
    ∀ (n : Nat) (moves : List Nat) (i : Nat), moves.length - i ≤ n →
      ∀ x, x ∈ ssortAsc key moves i → x ∈ moves := by
  intro n
  induction n with
  | zero =>
    intro moves i hle x hx
    rwa [ssortAsc, if_neg (by omega)] at hx
  | succ n ih =>
    intro moves i hle x hx
    by_cases hlt : i + 1 < moves.length
    · rw [ssortAsc, if_pos hlt] at hx
      simp only [] at hx
      by_cases hb : selSmall key moves (key (moves.getD i 0)) 0 (i + 1) ≠ 0
      · rw [if_pos hb] at hx
        have hbi : selSmall key moves (key (moves.getD i 0)) 0 (i + 1) < moves.length :=
          selSmall_lt key moves (moves.length - (i + 1)) _ _ _ (by omega) (by omega)
        have hx2 := ih _ _ (by rw [swapL_length]; omega) x hx
        exact swapL_subset (by omega) hbi hx2
      · rw [if_neg hb] at hx
        exact ih _ _ (by omega) x hx
    · rwa [ssortAsc, if_neg hlt] at hx

theorem headD_mem {l : List Nat} (h : l ≠ []) (d : Nat) : l.headD d ∈ l := by
  cases l with
  | nil => exact absurd rfl h
  | cons a t => simp

theorem foldl_pres {σ : Type} (g : σ → Nat → σ) (P : σ → Prop) :
    ∀ (l : List Nat) (init : σ), (∀ st c, c ∈ l → P st → P (g st c)) →
      P init → P (l.foldl g init) := by
  intro l
  induction l with
  | nil => intro init _ h; exact h
  | cons c rest ih =>
    intro init hstep hinit
    rw [List.foldl_cons]
    exact ih _ (fun st c' hc' hP => hstep st c' (List.mem_cons_of_mem _ hc') hP)
      (hstep init c (List.mem_cons_self _ _) hinit)

/-- A position that is not over still has a playable column. -/
theorem exists_legal {s : BoardState} (hInv : Inv s)
    (hgo : isGameOver s = false) : ∃ c, c ≤ 6 ∧ lget s.pos c = 0 := by
  have hlen : s.history.length ≠ 42 := by
    intro h
    unfold isGameOver at hgo
    rw [h] at hgo
    simp at hgo
  have hcnt : s.pos.countP (fun x => !(x == 0)) < 42 := by
    have h1 := List.countP_le_length (fun x : Int => !(x == 0)) (l := s.pos)
    rw [hInv.posLen] at h1
    have h2 := hInv.pieces
    omega
  have hex : ∃ sq, sq < 42 ∧ lget s.pos sq = 0 := by
    by_contra hno
    push_neg at hno
    have hall : s.pos.countP (fun x => !(x == 0)) = s.pos.length := by
      apply List.countP_eq_length.2
      intro a ha
      obtain ⟨i, hi, hai⟩ := List.mem_iff_getElem.1 ha
      have hi42 : i < 42 := by rw [← hInv.posLen]; exact hi
      have hne := hno i hi42
      rw [← lget_eq_getElem hi] at hai
      rw [← hai]
      simp only [Bool.not_eq_true', beq_eq_false_iff_ne]
      exact hne
    rw [hInv.posLen] at hall
    omega
  obtain ⟨sq, hsq42, hempty⟩ := hex
  refine ⟨sq % 7, by omega, ?_⟩
  by_contra htop
  have h0 : lget s.pos (0 * 7 + sq % 7) ≠ 0 := by
    rw [(show 0 * 7 + sq % 7 = sq % 7 by omega)]
    exact htop
  have hchain := @grav_chain s hInv.gravity (sq % 7) (by omega)
    0 (sq / 7) (by omega) (by omega) h0
  rw [(show sq / 7 * 7 + sq % 7 = sq by omega)] at hchain
  exact hchain hempty

/-- Every column the descending move order produces is playable. -/
theorem descendMoves_mem {s : BoardState} {x : Nat} (hx : x ∈ descendMoves s) :
    x ≤ 6 ∧ lget s.pos x = 0 := by
  unfold descendMoves at hx
  have hx2 := ssortDesc_subset (statval s)
    ((pruneMoves s.pos [] rgMovesInit).length) _ 0 (by omega) x hx
  rcases pruneMoves_mem s.pos [] rgMovesInit x hx2 with hd | hp
  · exact absurd hd (List.not_mem_nil x)
  · refine ⟨?_, hp.2⟩
    have hall : ∀ y ∈ rgMovesInit, y ≤ 6 := by decide
    exact hall x hp.1

theorem ascendMoves_mem {s : BoardState} {x : Nat} (hx : x ∈ ascendMoves s) :
    x ≤ 6 ∧ lget s.pos x = 0 := by
  unfold ascendMoves at hx
  have hx2 := ssortAsc_subset (statval s)
    ((pruneMoves s.pos [] rgMovesInit).length) _ 0 (by omega) x hx
  rcases pruneMoves_mem s.pos [] rgMovesInit x hx2 with hd | hp
  · exact absurd hd (List.not_mem_nil x)
  · refine ⟨?_, hp.2⟩
    have hall : ∀ y ∈ rgMovesInit, y ≤ 6 := by decide
    exact hall x hp.1

theorem descendMoves_ne_nil {s : BoardState} (hInv : Inv s)
    (hgo : isGameOver s = false) : descendMoves s ≠ [] := by
  obtain ⟨c, hc6, htop⟩ := exists_legal hInv hgo
  have hcm : c ∈ rgMovesInit := by interval_cases c <;> decide
  have hprune : pruneMoves s.pos [] rgMovesInit ≠ [] :=
    pruneMoves_ne_nil s.pos [] rgMovesInit ⟨c, hcm, htop⟩
  intro h
  unfold descendMoves at h
  have hlen := ssortDesc_length (statval s)
    ((pruneMoves s.pos [] rgMovesInit).length) (pruneMoves s.pos [] rgMovesInit) 0
    (by omega)
  rw [h] at hlen
  simp only [List.length_nil] at hlen
  exact hprune (List.length_eq_zero.1 hlen.symm)

theorem ascendMoves_ne_nil {s : BoardState} (hInv : Inv s)
    (hgo : isGameOver s = false) : ascendMoves s ≠ [] := by
  obtain ⟨c, hc6, htop⟩ := exists_legal hInv hgo
  have hcm : c ∈ rgMovesInit := by interval_cases c <;> decide
  have hprune : pruneMoves s.pos [] rgMovesInit ≠ [] :=
    pruneMoves_ne_nil s.pos [] rgMovesInit ⟨c, hcm, htop⟩
  intro h
  unfold ascendMoves at h
  have hlen := ssortAsc_length (statval s)
    ((pruneMoves s.pos [] rgMovesInit).length) (pruneMoves s.pos [] rgMovesInit) 0
    (by omega)
  rw [h] at hlen
  simp only [List.length_nil] at hlen
  exact hprune (List.length_eq_zero.1 hlen.symm)

/-- The root loop of calcMaxMove keeps bestmove and secondbestmove inside
the candidate list. -/
theorem calcMaxMoveCore_bm_mem {s : BoardState} {dm : Nat}
    (hne : descendMoves s ≠ []) :
    (calcMaxMoveCore s dm).1.2.2.1 ∈ descendMoves s ∧
      (calcMaxMoveCore s dm).1.2.2.2 ∈ descendMoves s := by
  unfold calcMaxMoveCore
  simp only []
  apply foldl_pres (rootMaxStep s dm)
    (fun st => st.2.2.1 ∈ descendMoves s ∧ st.2.2.2 ∈ descendMoves s)
  · intro st c hc hP
    unfold rootMaxStep
    simp only []
    split
    · exact ⟨hc, hP.1⟩
    · exact hP
  · exact ⟨headD_mem hne 0, headD_mem hne 0⟩

theorem calcMinMoveCore_bm_mem {s : BoardState} {dm : Nat}
    (hne : ascendMoves s ≠ []) :
    (calcMinMoveCore s dm).1.2.2.1 ∈ ascendMoves s ∧
      (calcMinMoveCore s dm).1.2.2.2 ∈ ascendMoves s := by
  unfold calcMinMoveCore
  simp only []
  apply foldl_pres (rootMinStep s dm)
    (fun st => st.2.2.1 ∈ ascendMoves s ∧ st.2.2.2 ∈ ascendMoves s)
  · intro st c hc hP
    unfold rootMinStep
    simp only []
    split
    · exact ⟨hc, hP.1⟩
    · exact hP
  · exact ⟨headD_mem hne 0, headD_mem hne 0⟩

/-- calcMaxMove always answers with a member of its candidate list. -/
theorem calcMaxMove_mem {s : BoardState} {dm : Nat} {cb cs r1 r2 : ℚ}
    (hne : descendMoves s ≠ []) (h2a : 0 ≤ r2) (h2b : r2 < 1) :
    ∃ y ∈ descendMoves s, calcMaxMove s dm cb cs r1 r2 = (y : Int) := by
  unfold calcMaxMove
  simp only []
  by_cases hb1 : r1 < cb
  · rw [if_pos hb1]
    exact ⟨_, (calcMaxMoveCore_bm_mem hne).1, rfl⟩
  · rw [if_neg hb1]
    by_cases hb2 : r1 < cb + cs
    · rw [if_pos hb2]
      exact ⟨_, (calcMaxMoveCore_bm_mem hne).2, rfl⟩
    · rw [if_neg hb2]
      have hc2 : (calcMaxMoveCore s dm).2 = descendMoves s := rfl
      have hlen : 0 < (descendMoves s).length := List.length_pos.2 hne
      have hconv : (r2 * ((descendMoves s).length : ℚ)).floor
          = ⌊r2 * ((descendMoves s).length : ℚ)⌋ := rfl
      have hfl0 : 0 ≤ (r2 * ((descendMoves s).length : ℚ)).floor := by
        rw [hconv]
        exact Int.floor_nonneg.2 (mul_nonneg h2a (by positivity))
      have hfl : (r2 * ((descendMoves s).length : ℚ)).floor
          < ((descendMoves s).length : Int) := by
        rw [hconv, Int.floor_lt]
        push_cast
        calc r2 * ((descendMoves s).length : ℚ)
            < 1 * ((descendMoves s).length : ℚ) := by
              apply mul_lt_mul_of_pos_right h2b
              exact_mod_cast hlen
          _ = ((descendMoves s).length : ℚ) := one_mul _
      have hidx : (r2 * ((descendMoves s).length : ℚ)).floor.toNat
          < (descendMoves s).length := (Int.toNat_lt hfl0).2 hfl
      rw [hc2]
      refine ⟨(descendMoves s).getD ((r2 * ((descendMoves s).length : ℚ)).floor.toNat) 0,
        ?_, rfl⟩
      rw [List.getD_eq_getElem?_getD, List.getElem?_eq_getElem hidx]
      exact List.getElem_mem hidx

theorem calcMinMove_mem {s : BoardState} {dm : Nat} {cb cs r1 r2 : ℚ}
    (hne : ascendMoves s ≠ []) (h2a : 0 ≤ r2) (h2b : r2 < 1) :
    ∃ y ∈ ascendMoves s, calcMinMove s dm cb cs r1 r2 = (y : Int) := by
  unfold calcMinMove
  simp only []
  by_cases hb1 : r1 < cb
  · rw [if_pos hb1]
    exact ⟨_, (calcMinMoveCore_bm_mem hne).1, rfl⟩
  · rw [if_neg hb1]
    by_cases hb2 : r1 < cb + cs
    · rw [if_pos hb2]
      exact ⟨_, (calcMinMoveCore_bm_mem hne).2, rfl⟩
    · rw [if_neg hb2]
      have hc2 : (calcMinMoveCore s dm).2 = ascendMoves s := rfl
      have hlen : 0 < (ascendMoves s).length := List.length_pos.2 hne
      have hconv : (r2 * ((ascendMoves s).length : ℚ)).floor
          = ⌊r2 * ((ascendMoves s).length : ℚ)⌋ := rfl
      have hfl0 : 0 ≤ (r2 * ((ascendMoves s).length : ℚ)).floor := by
        rw [hconv]
        exact Int.floor_nonneg.2 (mul_nonneg h2a (by positivity))
      have hfl : (r2 * ((ascendMoves s).length : ℚ)).floor
          < ((ascendMoves s).length : Int) := by
        rw [hconv, Int.floor_lt]
        push_cast
        calc r2 * ((ascendMoves s).length : ℚ)
            < 1 * ((ascendMoves s).length : ℚ) := by
              apply mul_lt_mul_of_pos_right h2b
              exact_mod_cast hlen
          _ = ((ascendMoves s).length : ℚ) := one_mul _
      have hidx : (r2 * ((ascendMoves s).length : ℚ)).floor.toNat
          < (ascendMoves s).length := (Int.toNat_lt hfl0).2 hfl
      rw [hc2]
      refine ⟨(ascendMoves s).getD ((r2 * ((ascendMoves s).length : ℚ)).floor.toNat) 0,
        ?_, rfl⟩
      rw [List.getD_eq_getElem?_getD, List.getElem?_eq_getElem hidx]
      exact List.getElem_mem hidx

/-- Claim C10: whenever the game is not over, takeComputerTurn plays a
column between 0 and 6 that is not full, for every difficulty setting and
every outcome of the two uniform draws; it never hands back the -1
sentinel, and the state advances by exactly that move. -/
theorem C10_takeComputerTurn_legal (s : BoardState) (hs : Reachable s)
    (hgo : isGameOver s = false) (d : Int) (r1 r2 : ℚ)
    (h2a : 0 ≤ r2) (h2b : r2 < 1) :
    ∃ col : Nat, col ≤ 6 ∧ ¬columnFull s col ∧ ((col : Int) ≠ -1) ∧
      takeComputerTurn s (setDifficulty d).2.1.toNat (setDifficulty d).2.2.1
          (setDifficulty d).2.2.2 r1 r2
        = ((col : Int), move col s) := by
  have hInv := reachable_inv hs
  have hnotfull : ∀ y : Nat, y ≤ 6 → lget s.pos y = 0 → ¬columnFull s y := by
    intro y hy htop hfull
    exact (top_ne_iff_full hInv.gravity hy).2 hfull htop
  unfold takeComputerTurn
  rw [if_neg (by rw [hgo]; exact Bool.false_ne_true)]
  simp only []
  by_cases ht : s.isComputerTurn = true
  · rw [if_pos ht]
    obtain ⟨y, hy, heq⟩ := @calcMaxMove_mem s (setDifficulty d).2.1.toNat
      (setDifficulty d).2.2.1 (setDifficulty d).2.2.2 r1 r2
      (descendMoves_ne_nil hInv hgo) h2a h2b
    obtain ⟨hy6, hytop⟩ := descendMoves_mem hy
    refine ⟨y, hy6, hnotfull y hy6 hytop, by omega, ?_⟩
    rw [heq]
    rw [Int.toNat_natCast]
  · rw [if_neg ht]
    obtain ⟨y, hy, heq⟩ := @calcMinMove_mem s (setDifficulty d).2.1.toNat
      (setDifficulty d).2.2.1 (setDifficulty d).2.2.2 r1 r2
      (ascendMoves_ne_nil hInv hgo) h2a h2b
    obtain ⟨hy6, hytop⟩ := ascendMoves_mem hy
    refine ⟨y, hy6, hnotfull y hy6 hytop, by omega, ?_⟩
    rw [heq]
    rw [Int.toNat_natCast]

/-- Witness for C10 on the opening position with the computer to move. -/
theorem C10_takeComputerTurn_legal_witness :
    ∃ col : Nat, col ≤ 6 ∧ ¬columnFull compStart col ∧ ((col : Int) ≠ -1) ∧
      takeComputerTurn compStart (setDifficulty 0).2.1.toNat
          (setDifficulty 0).2.2.1 (setDifficulty 0).2.2.2 0 0
        = ((col : Int), move col compStart) :=
  C10_takeComputerTurn_legal compStart (Reachable.start true) (by decide) 0 0 0
    (by norm_num) (by norm_num)

theorem le_foldl_max : ∀ (l : List Int) (b : Int), b ≤ l.foldl max b := by
  intro l
  induction l with
  | nil => intro b; exact le_refl b
  | cons v rest ih =>
    intro b
    rw [List.foldl_cons]
    exact le_trans (le_max_left b v) (ih (max b v))

theorem le_foldl_max_of_mem :
    ∀ (l : List Int) (b v : Int), v ∈ l → v ≤ l.foldl max b := by
  intro l
  induction l with
  | nil => intro b v h; cases h
  | cons a rest ih =>
    intro b v h
    rw [List.foldl_cons]
    rcases List.mem_cons.1 h with he | hm
    · exact le_trans (by rw [he]; exact le_max_right b a)
        (le_foldl_max rest (max b a))
    · exact ih (max b a) v hm

theorem foldl_min_le : ∀ (l : List Int) (b : Int), l.foldl min b ≤ b := by
  intro l
  induction l with
  | nil => intro b; exact le_refl b
  | cons v rest ih =>
    intro b
    rw [List.foldl_cons]
    exact le_trans (ih (min b v)) (min_le_left b v)

theorem foldl_min_le_of_mem :
    ∀ (l : List Int) (b v : Int), v ∈ l → l.foldl min b ≤ v := by
  intro l
  induction l with
  | nil => intro b v h; cases h
  | cons a rest ih =>
    intro b v h
    rw [List.foldl_cons]
    rcases List.mem_cons.1 h with he | hm
    · exact le_trans (foldl_min_le rest (min b a))
        (by rw [he]; exact min_le_right b a)
    · exact ih (min b a) v hm

theorem headD_eq_getD (l : List Nat) (d : Nat) : l.headD d = l.getD 0 d := by
  cases l <;> rfl

theorem pruneMoves_eqF :
    ∀ (fuel : Nat) (pos : List Int) (done pending : List Nat),
      pending.length ≤ fuel →
      pruneMovesF fuel pos done pending = pruneMoves pos done pending := by
  intro fuel
  induction fuel with
  | zero =>
    intro pos done pending hlen
    have hp : pending = [] := List.eq_nil_of_length_eq_zero (Nat.le_zero.1 hlen)
    subst hp
    rw [pruneMoves]
    rfl
  | succ fuel ih =>
    intro pos done pending hlen
    rcases pending with _ | ⟨m, _ | ⟨h, t⟩⟩
    · rw [pruneMoves]
      rfl
    · rw [pruneMoves]
      show (if lget pos m ≠ 0 then done else pruneMovesF fuel pos (done ++ [m]) [])
          = (if lget pos m ≠ 0 then done else pruneMoves pos (done ++ [m]) [])
      by_cases hm : lget pos m ≠ 0
      · rw [if_pos hm, if_pos hm]
      · rw [if_neg hm, if_neg hm, ih pos (done ++ [m]) [] (Nat.zero_le fuel)]
    · have hlen1 : ((h :: t).getLastD 0 :: (h :: t).dropLast).length ≤ fuel := by
        simp only [List.length_cons, List.length_dropLast] at hlen ⊢
        omega
      have hlen2 : (h :: t).length ≤ fuel := by
        simp only [List.length_cons] at hlen ⊢
        omega
      rw [pruneMoves]
      show (if lget pos m ≠ 0
            then pruneMovesF fuel pos done ((h :: t).getLastD 0 :: (h :: t).dropLast)
            else pruneMovesF fuel pos (done ++ [m]) (h :: t))
          = (if lget pos m ≠ 0
            then pruneMoves pos done ((h :: t).getLastD 0 :: (h :: t).dropLast)
            else pruneMoves pos (done ++ [m]) (h :: t))
      by_cases hm : lget pos m ≠ 0
      · rw [if_pos hm, if_pos hm, ih pos done _ hlen1]
      · rw [if_neg hm, if_neg hm, ih pos (done ++ [m]) _ hlen2]

theorem selBig_eqF :
    ∀ (fuel : Nat) (key : Nat → Int) (moves : List Nat) (bigval : Int)
      (bigindex j : Nat), moves.length - j ≤ fuel →
      selBigF fuel key moves bigval bigindex j = selBig key moves bigval bigindex j := by
  intro fuel
  induction fuel with
  | zero =>
    intro key moves bigval bigindex j hj
    have hge : ¬ j < moves.length := by omega
    rw [selBig, if_neg hge]
    rfl
  | succ fuel ih =>
    intro key moves bigval bigindex j hj
    rw [selBig]
    show (if j < moves.length then
            if key (moves.getD j 0) > bigval then
              selBigF fuel key moves (key (moves.getD j 0)) j (j + 1)
            else selBigF fuel key moves bigval bigindex (j + 1)
          else bigindex) = _
    by_cases hlt : j < moves.length
    · rw [if_pos hlt, if_pos hlt]
      have hj1 : moves.length - (j + 1) ≤ fuel := by omega
      by_cases hk : key (moves.getD j 0) > bigval
      · rw [if_pos hk, if_pos hk, ih _ _ _ _ _ hj1]
      · rw [if_neg hk, if_neg hk, ih _ _ _ _ _ hj1]
    · rw [if_neg hlt, if_neg hlt]

theorem selSmall_eqF :
    ∀ (fuel : Nat) (key : Nat → Int) (moves : List Nat) (smallval : Int)
      (smallindex j : Nat), moves.length - j ≤ fuel →
      selSmallF fuel key moves smallval smallindex j
        = selSmall key moves smallval smallindex j := by
  intro fuel
  induction fuel with
  | zero =>
    intro key moves smallval smallindex j hj
    have hge : ¬ j < moves.length := by omega
    rw [selSmall, if_neg hge]
    rfl
  | succ fuel ih =>
    intro key moves smallval smallindex j hj
    rw [selSmall]
    show (if j < moves.length then
            if key (moves.getD j 0) < smallval then
              selSmallF fuel key moves (key (moves.getD j 0)) j (j + 1)
            else selSmallF fuel key moves smallval smallindex (j + 1)
          else smallindex) = _
    by_cases hlt : j < moves.length
    · rw [if_pos hlt, if_pos hlt]
      have hj1 : moves.length - (j + 1) ≤ fuel := by omega
      by_cases hk : key (moves.getD j 0) < smallval
      · rw [if_pos hk, if_pos hk, ih _ _ _ _ _ hj1]
      · rw [if_neg hk, if_neg hk, ih _ _ _ _ _ hj1]
    · rw [if_neg hlt, if_neg hlt]

theorem ssortDesc_eqF :
    ∀ (fuel : Nat) (key : Nat → Int) (moves : List Nat) (i : Nat),
      moves.length - i ≤ fuel →
      ssortDescF fuel key moves i = ssortDesc key moves i := by
  intro fuel
  induction fuel with
  | zero =>
    intro key moves i hi
    have hge : ¬ i + 1 < moves.length := by omega
    rw [ssortDesc, if_neg hge]
    rfl
  | succ fuel ih =>
    intro key moves i hi
    have hF : ssortDescF (fuel + 1) key moves i
        = if i + 1 < moves.length then
            ssortDescF fuel key
              (if selBigF moves.length key moves (key (moves.getD i 0)) 0 (i + 1) ≠ 0
               then swapL moves i
                 (selBigF moves.length key moves (key (moves.getD i 0)) 0 (i + 1))
               else moves)
              (i + 1)
          else moves := rfl
    rw [hF, ssortDesc]
    simp only []
    by_cases hlt : i + 1 < moves.length
    · rw [if_pos hlt, if_pos hlt,
        selBig_eqF moves.length key moves (key (moves.getD i 0)) 0 (i + 1)
          (Nat.sub_le _ _)]
      apply ih
      have hlen : (if selBig key moves (key (moves.getD i 0)) 0 (i + 1) ≠ 0
          then swapL moves i (selBig key moves (key (moves.getD i 0)) 0 (i + 1))
          else moves).length = moves.length := by
        split
        · exact swapL_length _ _ _
        · rfl
      rw [hlen]
      omega
    · rw [if_neg hlt, if_neg hlt]

theorem ssortAsc_eqF :
    ∀ (fuel : Nat) (key : Nat → Int) (moves : List Nat) (i : Nat),
      moves.length - i ≤ fuel →
      ssortAscF fuel key moves i = ssortAsc key moves i := by
  intro fuel
  induction fuel with
  | zero =>
    intro key moves i hi
    have hge : ¬ i + 1 < moves.length := by omega
    rw [ssortAsc, if_neg hge]
    rfl
  | succ fuel ih =>
    intro key moves i hi
    have hF : ssortAscF (fuel + 1) key moves i
        = if i + 1 < moves.length then
            ssortAscF fuel key
              (if selSmallF moves.length key moves (key (moves.getD i 0)) 0 (i + 1) ≠ 0
               then swapL moves i
                 (selSmallF moves.length key moves (key (moves.getD i 0)) 0 (i + 1))
               else moves)
              (i + 1)
          else moves := rfl
    rw [hF, ssortAsc]
    simp only []
    by_cases hlt : i + 1 < moves.length
    · rw [if_pos hlt, if_pos hlt,
        selSmall_eqF moves.length key moves (key (moves.getD i 0)) 0 (i + 1)
          (Nat.sub_le _ _)]
      apply ih
      have hlen : (if selSmall key moves (key (moves.getD i 0)) 0 (i + 1) ≠ 0
          then swapL moves i (selSmall key moves (key (moves.getD i 0)) 0 (i + 1))
          else moves).length = moves.length := by
        split
        · exact swapL_length _ _ _
        · rfl
      rw [hlen]
      omega
    · rw [if_neg hlt, if_neg hlt]

theorem descendMoves_eqF (s : BoardState) : descendMovesF s = descendMoves s := by
  unfold descendMovesF descendMoves
  rw [pruneMoves_eqF 7 s.pos [] rgMovesInit (by decide)]
  rw [ssortDesc_eqF _ _ _ 0 (Nat.sub_le _ _)]

theorem ascendMoves_eqF (s : BoardState) : ascendMovesF s = ascendMoves s := by
  unfold ascendMovesF ascendMoves
  rw [pruneMoves_eqF 7 s.pos [] rgMovesInit (by decide)]
  rw [ssortAsc_eqF _ _ _ 0 (Nat.sub_le _ _)]

theorem calcMinEval_one (s : BoardState) (a b : Int) :
    calcMinEval s 1 a b = leafMin s := by
  rw [calcMinEval]
  rfl

theorem calcMaxEval_one (s : BoardState) (a b : Int) :
    calcMaxEval s 1 a b = leafMax s := by
  rw [calcMaxEval]
  rfl

theorem rootMaxTrace_len (s : BoardState) (dm : Nat) :
    ∀ (moves : List Nat) (st : Int × Int × Nat × Nat),
      (rootMaxTrace s dm st moves).length = moves.length := by
  intro moves
  induction moves with
  | nil => intro st; rfl
  | cons c rest ih =>
    intro st
    have h : rootMaxTrace s dm st (c :: rest)
        = rootMaxTemp s dm st.1 c
          :: rootMaxTrace s dm (rootMaxStep s dm st c) rest := rfl
    rw [h, List.length_cons, ih, List.length_cons]

theorem rootMinTrace_len (s : BoardState) (dm : Nat) :
    ∀ (moves : List Nat) (st : Int × Int × Nat × Nat),
      (rootMinTrace s dm st moves).length = moves.length := by
  intro moves
  induction moves with
  | nil => intro st; rfl
  | cons c rest ih =>
    intro st
    have h : rootMinTrace s dm st (c :: rest)
        = rootMinTemp s dm st.1 c
          :: rootMinTrace s dm (rootMinStep s dm st c) rest := rfl
    rw [h, List.length_cons, ih, List.length_cons]

theorem rootMaxTemps_eq_trace (s : BoardState) (dm : Nat) :
    rootMaxTemps s dm
      = rootMaxTrace s dm
          (-10000, -10001, (descendMoves s).headD 0, (descendMoves s).headD 0)
          (descendMoves s) := by
  have key : ∀ (moves : List Nat) (st : Int × Int × Nat × Nat) (acc : List Int),
      (moves.foldl
        (fun (p : (Int × Int × Nat × Nat) × List Int) c =>
          (rootMaxStep s dm p.1 c, p.2 ++ [rootMaxTemp s dm p.1.1 c]))
        (st, acc)).2
      = acc ++ rootMaxTrace s dm st moves := by
    intro moves
    induction moves with
    | nil => intro st acc; simp [rootMaxTrace]
    | cons c rest ih =>
      intro st acc
      rw [List.foldl_cons]
      simp only []
      rw [ih (rootMaxStep s dm st c) (acc ++ [rootMaxTemp s dm st.1 c])]
      have ht : rootMaxTrace s dm st (c :: rest)
          = rootMaxTemp s dm st.1 c
            :: rootMaxTrace s dm (rootMaxStep s dm st c) rest := rfl
      rw [ht, List.append_assoc]
      rfl
  unfold rootMaxTemps
  simp only []
  rw [key]
  rfl

theorem rootMinTemps_eq_trace (s : BoardState) (dm : Nat) :
    rootMinTemps s dm
      = rootMinTrace s dm
          (10000, 10001, (ascendMoves s).headD 0, (ascendMoves s).headD 0)
          (ascendMoves s) := by
  have key : ∀ (moves : List Nat) (st : Int × Int × Nat × Nat) (acc : List Int),
      (moves.foldl
        (fun (p : (Int × Int × Nat × Nat) × List Int) c =>
          (rootMinStep s dm p.1 c, p.2 ++ [rootMinTemp s dm p.1.1 c]))
        (st, acc)).2
      = acc ++ rootMinTrace s dm st moves := by
    intro moves
    induction moves with
    | nil => intro st acc; simp [rootMinTrace]
    | cons c rest ih =>
      intro st acc
      rw [List.foldl_cons]
      simp only []
      rw [ih (rootMinStep s dm st c) (acc ++ [rootMinTemp s dm st.1 c])]
      have ht : rootMinTrace s dm st (c :: rest)
          = rootMinTemp s dm st.1 c
            :: rootMinTrace s dm (rootMinStep s dm st c) rest := rfl
      rw [ht, List.append_assoc]
      rfl
  unfold rootMinTemps
  simp only []
  rw [key]
  rfl

theorem rootMaxTrace_one (s : BoardState) :
    ∀ (moves : List Nat) (st : Int × Int × Nat × Nat),
      rootMaxTrace s 1 st moves = moves.map (rootMaxTempF1 s) := by
  intro moves
  induction moves with
  | nil => intro st; rfl
  | cons c rest ih =>
    intro st
    have h : rootMaxTrace s 1 st (c :: rest)
        = rootMaxTemp s 1 st.1 c
          :: rootMaxTrace s 1 (rootMaxStep s 1 st c) rest := rfl
    rw [h, ih, List.map_cons]
    have h2 : rootMaxTemp s 1 st.1 c = rootMaxTempF1 s c := by
      unfold rootMaxTemp rootMaxTempF1
      simp only []
      rw [calcMinEval_one]
    rw [h2]

theorem rootMinTrace_one (s : BoardState) :
    ∀ (moves : List Nat) (st : Int × Int × Nat × Nat),
      rootMinTrace s 1 st moves = moves.map (rootMinTempF1 s) := by
  intro moves
  induction moves with
  | nil => intro st; rfl
  | cons c rest ih =>
    intro st
    have h : rootMinTrace s 1 st (c :: rest)
        = rootMinTemp s 1 st.1 c
          :: rootMinTrace s 1 (rootMinStep s 1 st c) rest := rfl
    rw [h, ih, List.map_cons]
    have h2 : rootMinTemp s 1 st.1 c = rootMinTempF1 s c := by
      unfold rootMinTemp rootMinTempF1
      simp only []
      rw [calcMaxEval_one]
    rw [h2]

theorem rootMaxTemps_one (s : BoardState) :
    rootMaxTemps s 1 = (descendMovesF s).map (rootMaxTempF1 s) := by
  rw [rootMaxTemps_eq_trace, rootMaxTrace_one, descendMoves_eqF]

theorem rootMinTemps_one (s : BoardState) :
    rootMinTemps s 1 = (ascendMovesF s).map (rootMinTempF1 s) := by
  rw [rootMinTemps_eq_trace, rootMinTrace_one, ascendMoves_eqF]

theorem rootMaxStep_one (s : BoardState) (st : Int × Int × Nat × Nat) (c : Nat) :
    rootMaxStep s 1 st c = rootMaxStepF1 s st c := by
  unfold rootMaxStep rootMaxStepF1 rootMaxTemp rootMaxTempF1
  simp only []
  rw [calcMinEval_one]

theorem rootMinStep_one (s : BoardState) (st : Int × Int × Nat × Nat) (c : Nat) :
    rootMinStep s 1 st c = rootMinStepF1 s st c := by
  unfold rootMinStep rootMinStepF1 rootMinTemp rootMinTempF1
  simp only []
  rw [calcMaxEval_one]

theorem calcMaxMoveCore_one (s : BoardState) :
    calcMaxMoveCore s 1
      = ((descendMovesF s).foldl (rootMaxStepF1 s)
          (-10000, -10001, (descendMovesF s).headD 0, (descendMovesF s).headD 0),
         descendMovesF s) := by
  have hfold : ∀ (l : List Nat) (st : Int × Int × Nat × Nat),
      l.foldl (rootMaxStep s 1) st = l.foldl (rootMaxStepF1 s) st := by
    intro l
    induction l with
    | nil => intro st; rfl
    | cons c rest ih =>
      intro st
      rw [List.foldl_cons, List.foldl_cons, rootMaxStep_one, ih]
  unfold calcMaxMoveCore
  simp only []
  rw [← descendMoves_eqF, hfold]

theorem calcMinMoveCore_one (s : BoardState) :
    calcMinMoveCore s 1
      = ((ascendMovesF s).foldl (rootMinStepF1 s)
          (10000, 10001, (ascendMovesF s).headD 0, (ascendMovesF s).headD 0),
         ascendMovesF s) := by
  have hfold : ∀ (l : List Nat) (st : Int × Int × Nat × Nat),
      l.foldl (rootMinStep s 1) st = l.foldl (rootMinStepF1 s) st := by
    intro l
    induction l with
    | nil => intro st; rfl
    | cons c rest ih =>
      intro st
      rw [List.foldl_cons, List.foldl_cons, rootMinStep_one, ih]
  unfold calcMinMoveCore
  simp only []
  rw [← ascendMoves_eqF, hfold]

theorem rootMaxFold_char (s : BoardState) (dm : Nat) :
    ∀ (moves : List Nat) (st : Int × Int × Nat × Nat),
      ((moves.foldl (rootMaxStep s dm) st).2.1
          = (rootMaxTrace s dm st moves).foldl max st.2.1)
      ∧ ((moves.foldl (rootMaxStep s dm) st).2.2.1
          = (firstArgmaxFrom st.2.1 (rootMaxTrace s dm st moves)).elim
              st.2.2.1 (fun j => moves.getD j 0))
      ∧ ((moves.foldl (rootMaxStep s dm) st).2.2.2
          = (firstArgmaxFrom st.2.1 (rootMaxTrace s dm st moves)).elim
              st.2.2.2
              (fun j =>
                (firstArgmaxFrom st.2.1
                    ((rootMaxTrace s dm st moves).take j)).elim
                  st.2.2.1 (fun k => moves.getD k 0))) := by
  intro moves
  induction moves with
  | nil =>
    intro st
    have h0 : firstArgmaxFrom st.2.1 (rootMaxTrace s dm st []) = none := by
      unfold firstArgmaxFrom
      rw [show rootMaxTrace s dm st [] = [] from rfl, List.foldl_nil,
        if_neg (lt_irrefl st.2.1)]
    exact ⟨rfl, by rw [h0]; rfl, by rw [h0]; rfl⟩
  | cons c rest ih =>
    intro st
    obtain ⟨ih1, ih2, ih3⟩ := ih (rootMaxStep s dm st c)
    have hfold : (c :: rest).foldl (rootMaxStep s dm) st
        = rest.foldl (rootMaxStep s dm) (rootMaxStep s dm st c) := rfl
    have hT : rootMaxTrace s dm st (c :: rest)
        = rootMaxTemp s dm st.1 c
          :: rootMaxTrace s dm (rootMaxStep s dm st c) rest := rfl
    set v := rootMaxTemp s dm st.1 c with hv0
    set T := rootMaxTrace s dm (rootMaxStep s dm st c) rest with hT0
    by_cases hv : st.2.1 < v
    · have hst : rootMaxStep s dm st c = (v, v, c, st.2.2.1) := by
        unfold rootMaxStep
        simp only []
        rw [← hv0, if_pos hv]
      have hs1 : (rootMaxStep s dm st c).2.1 = v := by rw [hst]
      have hs21 : (rootMaxStep s dm st c).2.2.1 = c := by rw [hst]
      have hs22 : (rootMaxStep s dm st c).2.2.2 = st.2.2.1 := by rw [hst]
      rw [hs1] at ih1 ih2 ih3
      rw [hs21] at ih2 ih3
      rw [hs22] at ih3
      have hc1 : ((c :: rest).foldl (rootMaxStep s dm) st).2.1
          = (rootMaxTrace s dm st (c :: rest)).foldl max st.2.1 := by
        rw [hfold, ih1, hT, List.foldl_cons, max_eq_right (le_of_lt hv)]
      rcases lt_or_eq_of_le (le_foldl_max T v) with hM | hM
      · have houter : firstArgmaxFrom st.2.1 (v :: T)
            = some (T.indexOf (T.foldl max v) + 1) := by
          unfold firstArgmaxFrom
          rw [List.foldl_cons, max_eq_right (le_of_lt hv),
            if_pos (lt_trans hv hM), List.indexOf_cons_ne _ (ne_of_lt hM)]
        have hinner : firstArgmaxFrom v T = some (T.indexOf (T.foldl max v)) := by
          unfold firstArgmaxFrom
          rw [if_pos hM]
        refine ⟨hc1, ?_, ?_⟩
        · rw [hfold, ih2, hT, houter, hinner]
          simp only [Option.elim_some]
          rw [List.getD_cons_succ]
        · rw [hfold, ih3, hT, houter, hinner]
          simp only [Option.elim_some]
          rw [List.take_succ_cons]
          rcases lt_or_eq_of_le (le_foldl_max (T.take (T.indexOf (T.foldl max v))) v)
            with hM2 | hM2
          · have h1 : firstArgmaxFrom st.2.1 (v :: T.take (T.indexOf (T.foldl max v)))
                = some ((T.take (T.indexOf (T.foldl max v))).indexOf
                    ((T.take (T.indexOf (T.foldl max v))).foldl max v) + 1) := by
              unfold firstArgmaxFrom
              rw [List.foldl_cons, max_eq_right (le_of_lt hv),
                if_pos (lt_trans hv hM2), List.indexOf_cons_ne _ (ne_of_lt hM2)]
            have h2 : firstArgmaxFrom v (T.take (T.indexOf (T.foldl max v)))
                = some ((T.take (T.indexOf (T.foldl max v))).indexOf
                    ((T.take (T.indexOf (T.foldl max v))).foldl max v)) := by
              unfold firstArgmaxFrom
              rw [if_pos hM2]
            rw [h1, h2]
            simp only [Option.elim_some]
            rw [List.getD_cons_succ]
          · have h1 : firstArgmaxFrom st.2.1 (v :: T.take (T.indexOf (T.foldl max v)))
                = some 0 := by
              unfold firstArgmaxFrom
              rw [List.foldl_cons, max_eq_right (le_of_lt hv), ← hM2, if_pos hv,
                List.indexOf_cons_self]
            have h2 : firstArgmaxFrom v (T.take (T.indexOf (T.foldl max v)))
                = none := by
              unfold firstArgmaxFrom
              rw [← hM2, if_neg (lt_irrefl v)]
            rw [h1, h2]
            simp only [Option.elim_some, Option.elim_none]
            rfl
      · have houter : firstArgmaxFrom st.2.1 (v :: T) = some 0 := by
          unfold firstArgmaxFrom
          rw [List.foldl_cons, max_eq_right (le_of_lt hv), ← hM, if_pos hv,
            List.indexOf_cons_self]
        have hinner : firstArgmaxFrom v T = none := by
          unfold firstArgmaxFrom
          rw [← hM, if_neg (lt_irrefl v)]
        refine ⟨hc1, ?_, ?_⟩
        · rw [hfold, ih2, hT, houter, hinner]
          simp only [Option.elim_some, Option.elim_none]
          rfl
        · rw [hfold, ih3, hT, houter, hinner]
          simp only [Option.elim_some, Option.elim_none]
          rw [List.take_zero]
          have h0 : firstArgmaxFrom st.2.1 ([] : List Int) = none := by
            unfold firstArgmaxFrom
            rw [List.foldl_nil, if_neg (lt_irrefl st.2.1)]
          rw [h0]
          simp only [Option.elim_none]
    · have hst : rootMaxStep s dm st c = st := by
        unfold rootMaxStep
        simp only []
        rw [← hv0, if_neg hv]
      have hvle : v ≤ st.2.1 := not_lt.1 hv
      rw [hst] at ih1 ih2 ih3 hfold
      have hc1 : ((c :: rest).foldl (rootMaxStep s dm) st).2.1
          = (rootMaxTrace s dm st (c :: rest)).foldl max st.2.1 := by
        rw [hfold, ih1, hT, List.foldl_cons, max_eq_left hvle]
      rcases lt_or_eq_of_le (le_foldl_max T st.2.1) with hM | hM
      · have hne : v ≠ T.foldl max st.2.1 := ne_of_lt (lt_of_le_of_lt hvle hM)
        have houter : firstArgmaxFrom st.2.1 (v :: T)
            = some (T.indexOf (T.foldl max st.2.1) + 1) := by
          unfold firstArgmaxFrom
          rw [List.foldl_cons, max_eq_left hvle, if_pos hM,
            List.indexOf_cons_ne _ hne]
        have hinner : firstArgmaxFrom st.2.1 T
            = some (T.indexOf (T.foldl max st.2.1)) := by
          unfold firstArgmaxFrom
          rw [if_pos hM]
        refine ⟨hc1, ?_, ?_⟩
        · rw [hfold, ih2, hT, houter, hinner]
          simp only [Option.elim_some]
          rw [List.getD_cons_succ]
        · rw [hfold, ih3, hT, houter, hinner]
          simp only [Option.elim_some]
          rw [List.take_succ_cons]
          rcases lt_or_eq_of_le
            (le_foldl_max (T.take (T.indexOf (T.foldl max st.2.1))) st.2.1)
            with hM2 | hM2
          · have hne2 : v ≠ (T.take (T.indexOf (T.foldl max st.2.1))).foldl max st.2.1 :=
              ne_of_lt (lt_of_le_of_lt hvle hM2)
            have h1 : firstArgmaxFrom st.2.1
                (v :: T.take (T.indexOf (T.foldl max st.2.1)))
                = some ((T.take (T.indexOf (T.foldl max st.2.1))).indexOf
                    ((T.take (T.indexOf (T.foldl max st.2.1))).foldl max st.2.1) + 1) := by
              unfold firstArgmaxFrom
              rw [List.foldl_cons, max_eq_left hvle, if_pos hM2,
                List.indexOf_cons_ne _ hne2]
            have h2 : firstArgmaxFrom st.2.1 (T.take (T.indexOf (T.foldl max st.2.1)))
                = some ((T.take (T.indexOf (T.foldl max st.2.1))).indexOf
                    ((T.take (T.indexOf (T.foldl max st.2.1))).foldl max st.2.1)) := by
              unfold firstArgmaxFrom
              rw [if_pos hM2]
            rw [h1, h2]
            simp only [Option.elim_some]
            rw [List.getD_cons_succ]
          · have h1 : firstArgmaxFrom st.2.1
                (v :: T.take (T.indexOf (T.foldl max st.2.1))) = none := by
              unfold firstArgmaxFrom
              rw [List.foldl_cons, max_eq_left hvle, ← hM2,
                if_neg (lt_irrefl st.2.1)]
            have h2 : firstArgmaxFrom st.2.1 (T.take (T.indexOf (T.foldl max st.2.1)))
                = none := by
              unfold firstArgmaxFrom
              rw [← hM2, if_neg (lt_irrefl st.2.1)]
            rw [h1, h2]
            simp only [Option.elim_none]
      · have houter : firstArgmaxFrom st.2.1 (v :: T) = none := by
          unfold firstArgmaxFrom
          rw [List.foldl_cons, max_eq_left hvle, ← hM,
            if_neg (lt_irrefl st.2.1)]
        have hinner : firstArgmaxFrom st.2.1 T = none := by
          unfold firstArgmaxFrom
          rw [← hM, if_neg (lt_irrefl st.2.1)]
        refine ⟨hc1, ?_, ?_⟩
        · rw [hfold, ih2, hT, houter, hinner]
          rfl
        · rw [hfold, ih3, hT, houter, hinner]
          rfl

theorem rootMinFold_char (s : BoardState) (dm : Nat) :
    ∀ (moves : List Nat) (st : Int × Int × Nat × Nat),
      ((moves.foldl (rootMinStep s dm) st).2.1
          = (rootMinTrace s dm st moves).foldl min st.2.1)
      ∧ ((moves.foldl (rootMinStep s dm) st).2.2.1
          = (firstArgminFrom st.2.1 (rootMinTrace s dm st moves)).elim
              st.2.2.1 (fun j => moves.getD j 0))
      ∧ ((moves.foldl (rootMinStep s dm) st).2.2.2
          = (firstArgminFrom st.2.1 (rootMinTrace s dm st moves)).elim
              st.2.2.2
              (fun j =>
                (firstArgminFrom st.2.1
                    ((rootMinTrace s dm st moves).take j)).elim
                  st.2.2.1 (fun k => moves.getD k 0))) := by
  intro moves
  induction moves with
  | nil =>
    intro st
    have h0 : firstArgminFrom st.2.1 (rootMinTrace s dm st []) = none := by
      unfold firstArgminFrom
      rw [show rootMinTrace s dm st [] = [] from rfl, List.foldl_nil,
        if_neg (lt_irrefl st.2.1)]
    exact ⟨rfl, by rw [h0]; rfl, by rw [h0]; rfl⟩
  | cons c rest ih =>
    intro st
    obtain ⟨ih1, ih2, ih3⟩ := ih (rootMinStep s dm st c)
    have hfold : (c :: rest).foldl (rootMinStep s dm) st
        = rest.foldl (rootMinStep s dm) (rootMinStep s dm st c) := rfl
    have hT : rootMinTrace s dm st (c :: rest)
        = rootMinTemp s dm st.1 c
          :: rootMinTrace s dm (rootMinStep s dm st c) rest := rfl
    set v := rootMinTemp s dm st.1 c with hv0
    set T := rootMinTrace s dm (rootMinStep s dm st c) rest with hT0
    by_cases hv : st.2.1 > v
    · have hst : rootMinStep s dm st c = (v, v, c, st.2.2.1) := by
        unfold rootMinStep
        simp only []
        rw [← hv0, if_pos hv]
      have hs1 : (rootMinStep s dm st c).2.1 = v := by rw [hst]
      have hs21 : (rootMinStep s dm st c).2.2.1 = c := by rw [hst]
      have hs22 : (rootMinStep s dm st c).2.2.2 = st.2.2.1 := by rw [hst]
      rw [hs1] at ih1 ih2 ih3
      rw [hs21] at ih2 ih3
      rw [hs22] at ih3
      have hc1 : ((c :: rest).foldl (rootMinStep s dm) st).2.1
          = (rootMinTrace s dm st (c :: rest)).foldl min st.2.1 := by
        rw [hfold, ih1, hT, List.foldl_cons, min_eq_right (le_of_lt hv)]
      rcases lt_or_eq_of_le (foldl_min_le T v) with hM | hM
      · have houter : firstArgminFrom st.2.1 (v :: T)
            = some (T.indexOf (T.foldl min v) + 1) := by
          unfold firstArgminFrom
          rw [List.foldl_cons, min_eq_right (le_of_lt hv),
            if_pos (lt_trans hM hv), List.indexOf_cons_ne _ (ne_of_gt hM)]
        have hinner : firstArgminFrom v T = some (T.indexOf (T.foldl min v)) := by
          unfold firstArgminFrom
          rw [if_pos hM]
        refine ⟨hc1, ?_, ?_⟩
        · rw [hfold, ih2, hT, houter, hinner]
          simp only [Option.elim_some]
          rw [List.getD_cons_succ]
        · rw [hfold, ih3, hT, houter, hinner]
          simp only [Option.elim_some]
          rw [List.take_succ_cons]
          rcases lt_or_eq_of_le (foldl_min_le (T.take (T.indexOf (T.foldl min v))) v)
            with hM2 | hM2
          · have h1 : firstArgminFrom st.2.1 (v :: T.take (T.indexOf (T.foldl min v)))
                = some ((T.take (T.indexOf (T.foldl min v))).indexOf
                    ((T.take (T.indexOf (T.foldl min v))).foldl min v) + 1) := by
              unfold firstArgminFrom
              rw [List.foldl_cons, min_eq_right (le_of_lt hv),
                if_pos (lt_trans hM2 hv), List.indexOf_cons_ne _ (ne_of_gt hM2)]
            have h2 : firstArgminFrom v (T.take (T.indexOf (T.foldl min v)))
                = some ((T.take (T.indexOf (T.foldl min v))).indexOf
                    ((T.take (T.indexOf (T.foldl min v))).foldl min v)) := by
              unfold firstArgminFrom
              rw [if_pos hM2]
            rw [h1, h2]
            simp only [Option.elim_some]
            rw [List.getD_cons_succ]
          · have h1 : firstArgminFrom st.2.1 (v :: T.take (T.indexOf (T.foldl min v)))
                = some 0 := by
              unfold firstArgminFrom
              rw [List.foldl_cons, min_eq_right (le_of_lt hv), hM2, if_pos hv,
                List.indexOf_cons_self]
            have h2 : firstArgminFrom v (T.take (T.indexOf (T.foldl min v)))
                = none := by
              unfold firstArgminFrom
              rw [hM2, if_neg (lt_irrefl v)]
            rw [h1, h2]
            simp only [Option.elim_some, Option.elim_none]
            rfl
      · have houter : firstArgminFrom st.2.1 (v :: T) = some 0 := by
          unfold firstArgminFrom
          rw [List.foldl_cons, min_eq_right (le_of_lt hv), hM, if_pos hv,
            List.indexOf_cons_self]
        have hinner : firstArgminFrom v T = none := by
          unfold firstArgminFrom
          rw [hM, if_neg (lt_irrefl v)]
        refine ⟨hc1, ?_, ?_⟩
        · rw [hfold, ih2, hT, houter, hinner]
          simp only [Option.elim_some, Option.elim_none]
          rfl
        · rw [hfold, ih3, hT, houter, hinner]
          simp only [Option.elim_some, Option.elim_none]
          rw [List.take_zero]
          have h0 : firstArgminFrom st.2.1 ([] : List Int) = none := by
            unfold firstArgminFrom
            rw [List.foldl_nil, if_neg (lt_irrefl st.2.1)]
          rw [h0]
          simp only [Option.elim_none]
    · have hst : rootMinStep s dm st c = st := by
        unfold rootMinStep
        simp only []
        rw [← hv0, if_neg hv]
      have hvle : st.2.1 ≤ v := not_lt.1 hv
      rw [hst] at ih1 ih2 ih3 hfold
      have hc1 : ((c :: rest).foldl (rootMinStep s dm) st).2.1
          = (rootMinTrace s dm st (c :: rest)).foldl min st.2.1 := by
        rw [hfold, ih1, hT, List.foldl_cons, min_eq_left hvle]
      rcases lt_or_eq_of_le (foldl_min_le T st.2.1) with hM | hM
      · have hne : v ≠ T.foldl min st.2.1 := ne_of_gt (lt_of_lt_of_le hM hvle)
        have houter : firstArgminFrom st.2.1 (v :: T)
            = some (T.indexOf (T.foldl min st.2.1) + 1) := by
          unfold firstArgminFrom
          rw [List.foldl_cons, min_eq_left hvle, if_pos hM,
            List.indexOf_cons_ne _ hne]
        have hinner : firstArgminFrom st.2.1 T
            = some (T.indexOf (T.foldl min st.2.1)) := by
          unfold firstArgminFrom
          rw [if_pos hM]
        refine ⟨hc1, ?_, ?_⟩
        · rw [hfold, ih2, hT, houter, hinner]
          simp only [Option.elim_some]
          rw [List.getD_cons_succ]
        · rw [hfold, ih3, hT, houter, hinner]
          simp only [Option.elim_some]
          rw [List.take_succ_cons]
          rcases lt_or_eq_of_le
            (foldl_min_le (T.take (T.indexOf (T.foldl min st.2.1))) st.2.1)
            with hM2 | hM2
          · have hne2 : v ≠ (T.take (T.indexOf (T.foldl min st.2.1))).foldl min st.2.1 :=
              ne_of_gt (lt_of_lt_of_le hM2 hvle)
            have h1 : firstArgminFrom st.2.1
                (v :: T.take (T.indexOf (T.foldl min st.2.1)))
                = some ((T.take (T.indexOf (T.foldl min st.2.1))).indexOf
                    ((T.take (T.indexOf (T.foldl min st.2.1))).foldl min st.2.1) + 1) := by
              unfold firstArgminFrom
              rw [List.foldl_cons, min_eq_left hvle, if_pos hM2,
                List.indexOf_cons_ne _ hne2]
            have h2 : firstArgminFrom st.2.1 (T.take (T.indexOf (T.foldl min st.2.1)))
                = some ((T.take (T.indexOf (T.foldl min st.2.1))).indexOf
                    ((T.take (T.indexOf (T.foldl min st.2.1))).foldl min st.2.1)) := by
              unfold firstArgminFrom
              rw [if_pos hM2]
            rw [h1, h2]
            simp only [Option.elim_some]
            rw [List.getD_cons_succ]
          · have h1 : firstArgminFrom st.2.1
                (v :: T.take (T.indexOf (T.foldl min st.2.1))) = none := by
              unfold firstArgminFrom
              rw [List.foldl_cons, min_eq_left hvle, hM2,
                if_neg (lt_irrefl st.2.1)]
            have h2 : firstArgminFrom st.2.1 (T.take (T.indexOf (T.foldl min st.2.1)))
                = none := by
              unfold firstArgminFrom
              rw [hM2, if_neg (lt_irrefl st.2.1)]
            rw [h1, h2]
            simp only [Option.elim_none]
      · have houter : firstArgminFrom st.2.1 (v :: T) = none := by
          unfold firstArgminFrom
          rw [List.foldl_cons, min_eq_left hvle, hM,
            if_neg (lt_irrefl st.2.1)]
        have hinner : firstArgminFrom st.2.1 T = none := by
          unfold firstArgminFrom
          rw [hM, if_neg (lt_irrefl st.2.1)]
        refine ⟨hc1, ?_, ?_⟩
        · rw [hfold, ih2, hT, houter, hinner]
          rfl
        · rw [hfold, ih3, hT, houter, hinner]
          rfl

theorem firstArgmaxFrom_all_gt (l : List Int) (hne : l ≠ [])
    (hall : ∀ v ∈ l, -10001 < v) :
    firstArgmaxFrom (-10001) l = some (firstArgmax l) := by
  obtain ⟨a, ha⟩ := List.exists_mem_of_ne_nil l hne
  have hgt : (-10001 : Int) < l.foldl max (-10001) :=
    lt_of_lt_of_le (hall a ha) (le_foldl_max_of_mem l (-10001) a ha)
  unfold firstArgmaxFrom firstArgmax listMax
  rw [if_pos hgt]

theorem firstArgminFrom_all_lt (l : List Int) (hne : l ≠ [])
    (hall : ∀ v ∈ l, v < 10001) :
    firstArgminFrom 10001 l = some (firstArgmin l) := by
  obtain ⟨a, ha⟩ := List.exists_mem_of_ne_nil l hne
  have hlt : l.foldl min 10001 < 10001 :=
    lt_of_le_of_lt (foldl_min_le_of_mem l 10001 a ha) (hall a ha)
  unfold firstArgminFrom firstArgmin listMin
  rw [if_pos hlt]

theorem calcMaxMoveCore_char (s : BoardState) (dm : Nat)
    (hne : descendMoves s ≠ [])
    (hall : ∀ v ∈ rootMaxTemps s dm, -10001 < v) :
    (calcMaxMoveCore s dm).1.2.2.1
      = (descendMoves s).getD (firstArgmax (rootMaxTemps s dm)) 0
    ∧ (calcMaxMoveCore s dm).1.2.2.2
      = (if firstArgmax (rootMaxTemps s dm) = 0
         then (descendMoves s).getD 0 0
         else (descendMoves s).getD
           (firstArgmax ((rootMaxTemps s dm).take
             (firstArgmax (rootMaxTemps s dm)))) 0) := by
  obtain ⟨h1, h2, h3⟩ := rootMaxFold_char s dm (descendMoves s)
    (-10000, -10001, (descendMoves s).headD 0, (descendMoves s).headD 0)
  simp only [] at h2 h3
  rw [← rootMaxTemps_eq_trace] at h2 h3
  have htne : rootMaxTemps s dm ≠ [] := by
    intro h0
    apply hne
    apply List.eq_nil_of_length_eq_zero
    have hlen := rootMaxTrace_len s dm (descendMoves s)
      (-10000, -10001, (descendMoves s).headD 0, (descendMoves s).headD 0)
    rw [← hlen, ← rootMaxTemps_eq_trace, h0]
    rfl
  have hargs : firstArgmaxFrom (-10001) (rootMaxTemps s dm)
      = some (firstArgmax (rootMaxTemps s dm)) :=
    firstArgmaxFrom_all_gt _ htne hall
  have hcore : (calcMaxMoveCore s dm).1
      = (descendMoves s).foldl (rootMaxStep s dm)
          (-10000, -10001, (descendMoves s).headD 0, (descendMoves s).headD 0) := rfl
  constructor
  · rw [hcore, h2, hargs]
    simp only [Option.elim_some]
  · rw [hcore, h3, hargs]
    simp only [Option.elim_some]
    by_cases hz : firstArgmax (rootMaxTemps s dm) = 0
    · rw [hz, List.take_zero]
      have h0 : firstArgmaxFrom (-10001) ([] : List Int) = none := by
        unfold firstArgmaxFrom
        rw [List.foldl_nil, if_neg (lt_irrefl (-10001 : Int))]
      rw [h0]
      simp only [Option.elim_none]
      rw [if_pos trivial]
      exact headD_eq_getD _ _
    · rw [if_neg hz]
      have htkne : (rootMaxTemps s dm).take (firstArgmax (rootMaxTemps s dm)) ≠ [] := by
        intro hcontra
        rcases List.take_eq_nil_iff.1 hcontra with h | h
        · exact hz h
        · exact htne h
      have hargs2 : firstArgmaxFrom (-10001)
          ((rootMaxTemps s dm).take (firstArgmax (rootMaxTemps s dm)))
          = some (firstArgmax
              ((rootMaxTemps s dm).take (firstArgmax (rootMaxTemps s dm)))) := by
        apply firstArgmaxFrom_all_gt _ htkne
        intro v hv
        exact hall v (List.take_subset _ _ hv)
      rw [hargs2]
      simp only [Option.elim_some]

theorem calcMinMoveCore_char (s : BoardState) (dm : Nat)
    (hne : ascendMoves s ≠ [])
    (hall : ∀ v ∈ rootMinTemps s dm, v < 10001) :
    (calcMinMoveCore s dm).1.2.2.1
      = (ascendMoves s).getD (firstArgmin (rootMinTemps s dm)) 0
    ∧ (calcMinMoveCore s dm).1.2.2.2
      = (if firstArgmin (rootMinTemps s dm) = 0
         then (ascendMoves s).getD 0 0
         else (ascendMoves s).getD
           (firstArgmin ((rootMinTemps s dm).take
             (firstArgmin (rootMinTemps s dm)))) 0) := by
  obtain ⟨h1, h2, h3⟩ := rootMinFold_char s dm (ascendMoves s)
    (10000, 10001, (ascendMoves s).headD 0, (ascendMoves s).headD 0)
  simp only [] at h2 h3
  rw [← rootMinTemps_eq_trace] at h2 h3
  have htne : rootMinTemps s dm ≠ [] := by
    intro h0
    apply hne
    apply List.eq_nil_of_length_eq_zero
    have hlen := rootMinTrace_len s dm (ascendMoves s)
      (10000, 10001, (ascendMoves s).headD 0, (ascendMoves s).headD 0)
    rw [← hlen, ← rootMinTemps_eq_trace, h0]
    rfl
  have hargs : firstArgminFrom 10001 (rootMinTemps s dm)
      = some (firstArgmin (rootMinTemps s dm)) :=
    firstArgminFrom_all_lt _ htne hall
  have hcore : (calcMinMoveCore s dm).1
      = (ascendMoves s).foldl (rootMinStep s dm)
          (10000, 10001, (ascendMoves s).headD 0, (ascendMoves s).headD 0) := rfl
  constructor
  · rw [hcore, h2, hargs]
    simp only [Option.elim_some]
  · rw [hcore, h3, hargs]
    simp only [Option.elim_some]
    by_cases hz : firstArgmin (rootMinTemps s dm) = 0
    · rw [hz, List.take_zero]
      have h0 : firstArgminFrom 10001 ([] : List Int) = none := by
        unfold firstArgminFrom
        rw [List.foldl_nil, if_neg (lt_irrefl (10001 : Int))]
      rw [h0]
      simp only [Option.elim_none]
      rw [if_pos trivial]
      exact headD_eq_getD _ _
    · rw [if_neg hz]
      have htkne : (rootMinTemps s dm).take (firstArgmin (rootMinTemps s dm)) ≠ [] := by
        intro hcontra
        rcases List.take_eq_nil_iff.1 hcontra with h | h
        · exact hz h
        · exact htne h
      have hargs2 : firstArgminFrom 10001
          ((rootMinTemps s dm).take (firstArgmin (rootMinTemps s dm)))
          = some (firstArgmin
              ((rootMinTemps s dm).take (firstArgmin (rootMinTemps s dm)))) := by
        apply firstArgminFrom_all_lt _ htkne
        intro v hv
        exact hall v (List.take_subset _ _ hv)
      rw [hargs2]
      simp only [Option.elim_some]

/-- C6, counterexample to the original wording: from the reachable position
c6state (computer opened in column 2, human answered in column 0, computer to
move) at depthMax 1 (difficulty 0), the root loop explores the candidates
[2, 3, 4, 5, 1, 0, 6] with values [-3, 0, -1, -1, -2, -2, -3]; it returns
bestmove 3 (value 0) and secondbestmove 2, but the value candidate 2 produced
is -3, the worst value, not the second-best value -1 among all candidates:
secondbestmove holds the previous best, not the second-best. -/
theorem C6_secondbest_counterexample :
    Reachable c6state
    ∧ (calcMaxMoveCore c6state 1).2 = [2, 3, 4, 5, 1, 0, 6]
    ∧ rootMaxTemps c6state 1 = [-3, 0, -1, -1, -2, -2, -3]
    ∧ (calcMaxMoveCore c6state 1).1.2.2.1 = 3
    ∧ (calcMaxMoveCore c6state 1).1.2.2.2 = 2
    ∧ secondBestValue (rootMaxTemps c6state 1) = -1
    ∧ (rootMaxTemps c6state 1).getD
        ((calcMaxMoveCore c6state 1).2.indexOf ((calcMaxMoveCore c6state 1).1.2.2.2)) 0
      ≠ secondBestValue (rootMaxTemps c6state 1) := by
  refine ⟨?_, ?_, ?_, ?_, ?_, ?_, ?_⟩
  · exact Reachable.play _ 0
      (Reachable.play _ 2 (Reachable.start true) (by decide)) (by decide)
  · rw [calcMaxMoveCore_one]
    decide
  · rw [rootMaxTemps_one]
    decide
  · rw [calcMaxMoveCore_one]
    decide
  · rw [calcMaxMoveCore_one]
    decide
  · rw [rootMaxTemps_one]
    decide
  · rw [calcMaxMoveCore_one, rootMaxTemps_one]
    decide

/-- C6, amended: in the root loops of calcMaxMove and calcMinMove, when every
candidate value beats the initial best (-10001 for max, 10001 for min),
bestmove is the candidate at the first index attaining the extreme of the
value list (ties broken by order of discovery: later equal values never
overwrite), and secondbestmove is not the move of the second-best value but
the best tracked before the final improvement: the candidate at the first
index attaining the extreme of the prefix strictly before bestmove's index,
or the first candidate when bestmove is at index 0. -/
theorem C6_root_best_and_secondbest (s : BoardState) (dm : Nat)
    (hdne : descendMoves s ≠ [])
    (hane : ascendMoves s ≠ [])
    (hmax : ∀ v ∈ rootMaxTemps s dm, -10001 < v)
    (hmin : ∀ v ∈ rootMinTemps s dm, v < 10001) :
    ((calcMaxMoveCore s dm).1.2.2.1
        = (descendMoves s).getD (firstArgmax (rootMaxTemps s dm)) 0
      ∧ (calcMaxMoveCore s dm).1.2.2.2
        = (if firstArgmax (rootMaxTemps s dm) = 0
           then (descendMoves s).getD 0 0
           else (descendMoves s).getD
             (firstArgmax ((rootMaxTemps s dm).take
               (firstArgmax (rootMaxTemps s dm)))) 0))
    ∧ ((calcMinMoveCore s dm).1.2.2.1
        = (ascendMoves s).getD (firstArgmin (rootMinTemps s dm)) 0
      ∧ (calcMinMoveCore s dm).1.2.2.2
        = (if firstArgmin (rootMinTemps s dm) = 0
           then (ascendMoves s).getD 0 0
           else (ascendMoves s).getD
             (firstArgmin ((rootMinTemps s dm).take
               (firstArgmin (rootMinTemps s dm)))) 0)) :=
  ⟨calcMaxMoveCore_char s dm hdne hmax, calcMinMoveCore_char s dm hane hmin⟩

/-- Witness for C6 at the concrete position c6state with depthMax 1: the
hypotheses hold and the characterization applies. -/
theorem C6_root_best_and_secondbest_witness :
    (descendMoves c6state ≠ [])
    ∧ (ascendMoves c6state ≠ [])
    ∧ (∀ v ∈ rootMaxTemps c6state 1, -10001 < v)
    ∧ (∀ v ∈ rootMinTemps c6state 1, v < 10001)
    ∧ (((calcMaxMoveCore c6state 1).1.2.2.1
          = (descendMoves c6state).getD (firstArgmax (rootMaxTemps c6state 1)) 0
        ∧ (calcMaxMoveCore c6state 1).1.2.2.2
          = (if firstArgmax (rootMaxTemps c6state 1) = 0
             then (descendMoves c6state).getD 0 0
             else (descendMoves c6state).getD
               (firstArgmax ((rootMaxTemps c6state 1).take
                 (firstArgmax (rootMaxTemps c6state 1)))) 0))
      ∧ ((calcMinMoveCore c6state 1).1.2.2.1
          = (ascendMoves c6state).getD (firstArgmin (rootMinTemps c6state 1)) 0
        ∧ (calcMinMoveCore c6state 1).1.2.2.2
          = (if firstArgmin (rootMinTemps c6state 1) = 0
             then (ascendMoves c6state).getD 0 0
             else (ascendMoves c6state).getD
               (firstArgmin ((rootMinTemps c6state 1).take
                 (firstArgmin (rootMinTemps c6state 1)))) 0))) :=
  ⟨by rw [← descendMoves_eqF]; decide,
   by rw [← ascendMoves_eqF]; decide,
   by rw [rootMaxTemps_one]; decide,
   by rw [rootMinTemps_one]; decide,
   C6_root_best_and_secondbest c6state 1
     (by rw [← descendMoves_eqF]; decide)
     (by rw [← ascendMoves_eqF]; decide)
     (by rw [rootMaxTemps_one]; decide)
     (by rw [rootMinTemps_one]; decide)⟩

end DropFour
